import Mathlib


/-!
# Verification of the lg2m/tools spectral engine and batch pipeline sequencer

Shallow embedding of the algorithmic core of the repository:

* `src/lib/audio/spectrogram-worker.ts` — the inline radix-2 Cooley-Tukey FFT
  and the spectrogram frame generator (`onmessage` body);
* the exported library FFT (`fft` / `computeMagnitudeSpectrum`);
* the batch pipeline sequencer (`processAudioBatch`, `getEnabledSteps`,
  `buildAggregate`).

JavaScript `Float32Array`s are modelled as total functions `ℕ → ℚ` together
with an explicit length; floating-point arithmetic is modelled exactly over
`ℚ`, and the transcendental functions the code calls (`Math.cos`, `Math.sin`,
`Math.sqrt`, `Math.log10`) are abstracted as function parameters, so every
theorem below holds for the actual real-valued functions in particular.
-/

/-- Functional-array write: `a[i] = v` on an array modelled as `ℕ → ℚ`. -/
def upd (f : ℕ → ℚ) (i : ℕ) (v : ℚ) : ℕ → ℚ := fun m => if m = i then v else f m

/-- The all-zero array (`new Float32Array(n)` starts zero-filled). -/
def zeroArr : ℕ → ℚ := fun _ => 0

/-- The array that is `1` on indices `< L` and `0` from `L` on. -/
def onesBelow (L : ℕ) : ℕ → ℚ := fun m => if m < L then 1 else 0

/-- The impulse input: `real[0] = 1`, every other entry `0`. -/
def impulse : ℕ → ℚ := fun m => if m = 0 then 1 else 0

namespace SpectrogramWorker


/-!
## Inline FFT of `spectrogram-worker.ts`

```js
function fft(real, imag) {
  const n = real.length;
  if (n <= 1) return;
  // Bit-reversal permutation
  let j = 0;
  for (let i = 0; i < n - 1; i++) {
    if (i < j) { swap real[i],real[j]; swap imag[i],imag[j]; }
    let k = n >> 1;
    while (k <= j) { j -= k; k >>= 1; }
    j += k;
  }
  // Cooley-Tukey FFT with precomputed twiddle factors
  for (let len = 2; len <= n; len <<= 1) {
    const halfLen = len >> 1;
    const angle = (-2 * Math.PI) / len;
    const wPrReal = Math.cos(angle);
    const wPrImag = Math.sin(angle);
    for (let i = 0; i < n; i += len) {
      let wReal = 1; let wImag = 0;
      for (let j = 0; j < halfLen; j++) { ...butterfly... }
    }
  }
}
```

`c len` and `s len` stand for `Math.cos((-2π)/len)` and `Math.sin((-2π)/len)`.
The `while`/`for` loops are embedded with an explicit iteration budget (fuel)
whose sole role is to make the recursion structural; on every state reachable
from `fft`'s entry the loop guard, not the fuel, terminates the loop (the
carry loop runs at most `log₂ n + 1` times, the block loop at most `n` times
and the stage loop at most `log₂ n` times, all `≤ n` for `n ≥ 2`).
-/

/-- `while (k <= j) { j -= k; k >>= 1; }  j += k;` — the increment-carry trick
computing the next bit-reversed index. -/
def bitrevCarry : ℕ → ℕ → ℕ → ℕ
  | 0, j, k => j + k
  | fuel + 1, j, k => if k ≤ j then bitrevCarry fuel (j - k) (k / 2) else j + k

/-- The bit-reversal `for` loop: `cnt` iterations remain, `i` is the loop
counter, `j` the running bit-reversed index. -/
def bitrevGo (n : ℕ) : ℕ → ℕ → ℕ → (ℕ → ℚ) → (ℕ → ℚ) → ((ℕ → ℚ) × (ℕ → ℚ))
  | 0, _, _, re, im => (re, im)
  | cnt + 1, i, j, re, im =>
    let re1 := if i < j then upd (upd re i (re j)) j (re i) else re
    let im1 := if i < j then upd (upd im i (im j)) j (im i) else im
    bitrevGo n cnt (i + 1) (bitrevCarry n j (n / 2)) re1 im1

/-- Bit-reversal permutation pass (`for (let i = 0; i < n - 1; i++) ...`). -/
def bitReversal (n : ℕ) (re im : ℕ → ℚ) : (ℕ → ℚ) × (ℕ → ℚ) :=
  bitrevGo n (n - 1) 0 0 re im

/-- The butterfly inner loop (`for (let j = 0; j < halfLen; j++)`): `cnt`
iterations remain, `w` is the running twiddle factor, `wpr` the per-stage
rotation `(Math.cos(angle), Math.sin(angle))` hoisted out of the loop. -/
def butterflyGo (i halfLen : ℕ) (wpr : ℚ × ℚ) :
    ℕ → ℕ → (ℚ × ℚ) → (ℕ → ℚ) → (ℕ → ℚ) → ((ℕ → ℚ) × (ℕ → ℚ))
  | 0, _, _, re, im => (re, im)
  | cnt + 1, j, w, re, im =>
    let evenIdx := i + j
    let oddIdx := evenIdx + halfLen
    let tReal := w.1 * re oddIdx - w.2 * im oddIdx
    let tImag := w.1 * im oddIdx + w.2 * re oddIdx
    let re1 := upd re oddIdx (re evenIdx - tReal)
    let im1 := upd im oddIdx (im evenIdx - tImag)
    let re2 := upd re1 evenIdx (re1 evenIdx + tReal)
    let im2 := upd im1 evenIdx (im1 evenIdx + tImag)
    butterflyGo i halfLen wpr cnt (j + 1)
      (w.1 * wpr.1 - w.2 * wpr.2, w.1 * wpr.2 + w.2 * wpr.1) re2 im2

/-- The block loop (`for (let i = 0; i < n; i += len)`). -/
def blockGo (n len halfLen : ℕ) (wpr : ℚ × ℚ) :
    ℕ → ℕ → (ℕ → ℚ) → (ℕ → ℚ) → ((ℕ → ℚ) × (ℕ → ℚ))
  | 0, _, re, im => (re, im)
  | fuel + 1, i, re, im =>
    if i < n then
      let p := butterflyGo i halfLen wpr halfLen 0 (1, 0) re im
      blockGo n len halfLen wpr fuel (i + len) p.1 p.2
    else (re, im)

/-- The stage loop (`for (let len = 2; len <= n; len <<= 1)`). -/
def stageGo (c s : ℕ → ℚ) (n : ℕ) :
    ℕ → ℕ → (ℕ → ℚ) → (ℕ → ℚ) → ((ℕ → ℚ) × (ℕ → ℚ))
  | 0, _, re, im => (re, im)
  | fuel + 1, len, re, im =>
    if len ≤ n then
      let halfLen := len / 2
      let wpr := (c len, s len)
      let p := blockGo n len halfLen wpr n 0 re im
      stageGo c s n fuel (len * 2) p.1 p.2
    else (re, im)

/-- The worker's inline `fft(real, imag)`; `n = real.length`. -/
def fft (c s : ℕ → ℚ) (n : ℕ) (re im : ℕ → ℚ) : (ℕ → ℚ) × (ℕ → ℚ) :=
  if n ≤ 1 then (re, im)
  else
    let p := bitReversal n re im
    stageGo c s n n 2 p.1 p.2

end SpectrogramWorker

namespace FFTLib


/-!
## Exported library FFT (`lib/audio/fft.ts`)

Identical bit-reversal pass and butterfly, but the twiddle update calls
`Math.cos(angle)` / `Math.sin(angle)` inside the butterfly loop instead of
using the hoisted per-stage constants:

```js
const nextWReal = wReal * Math.cos(angle) - wImag * Math.sin(angle);
const nextWImag = wReal * Math.sin(angle) + wImag * Math.cos(angle);
```
-/

/-- The library butterfly loop; `angle = (-2π)/len` so `Math.cos(angle)` is
`c len` and `Math.sin(angle)` is `s len` at every iteration. -/
def butterflyGo (c s : ℕ → ℚ) (len i halfLen : ℕ) :
    ℕ → ℕ → (ℚ × ℚ) → (ℕ → ℚ) → (ℕ → ℚ) → ((ℕ → ℚ) × (ℕ → ℚ))
  | 0, _, _, re, im => (re, im)
  | cnt + 1, j, w, re, im =>
    let evenIdx := i + j
    let oddIdx := evenIdx + halfLen
    let tReal := w.1 * re oddIdx - w.2 * im oddIdx
    let tImag := w.1 * im oddIdx + w.2 * re oddIdx
    let re1 := upd re oddIdx (re evenIdx - tReal)
    let im1 := upd im oddIdx (im evenIdx - tImag)
    let re2 := upd re1 evenIdx (re1 evenIdx + tReal)
    let im2 := upd im1 evenIdx (im1 evenIdx + tImag)
    butterflyGo c s len i halfLen cnt (j + 1)
      (w.1 * c len - w.2 * s len, w.1 * s len + w.2 * c len) re2 im2

/-- The library block loop. -/
def blockGo (c s : ℕ → ℚ) (n len halfLen : ℕ) :
    ℕ → ℕ → (ℕ → ℚ) → (ℕ → ℚ) → ((ℕ → ℚ) × (ℕ → ℚ))
  | 0, _, re, im => (re, im)
  | fuel + 1, i, re, im =>
    if i < n then
      let p := butterflyGo c s len i halfLen halfLen 0 (1, 0) re im
      blockGo c s n len halfLen fuel (i + len) p.1 p.2
    else (re, im)

/-- The library stage loop (no hoisting of the per-stage rotation). -/
def stageGo (c s : ℕ → ℚ) (n : ℕ) :
    ℕ → ℕ → (ℕ → ℚ) → (ℕ → ℚ) → ((ℕ → ℚ) × (ℕ → ℚ))
  | 0, _, re, im => (re, im)
  | fuel + 1, len, re, im =>
    if len ≤ n then
      let halfLen := len / 2
      let p := blockGo c s n len halfLen n 0 re im
      stageGo c s n fuel (len * 2) p.1 p.2
    else (re, im)

/-- The exported library `fft(real, imag)`; `n = real.length`. -/
def fft (c s : ℕ → ℚ) (n : ℕ) (re im : ℕ → ℚ) : (ℕ → ℚ) × (ℕ → ℚ) :=
  if n ≤ 1 then (re, im)
  else
    let p := SpectrogramWorker.bitReversal n re im
    stageGo c s n n 2 p.1 p.2

end FFTLib

namespace SpectrogramWorker


/-!
## Spectrogram generation (`onmessage` body of `spectrogram-worker.ts`)

```js
const hopSize = Math.max(256, Math.floor((channelData.length - fftSize) / targetFrames));
const numFrames = Math.floor((channelData.length - fftSize) / hopSize);
const numBins = fftSize / 2;
const hannWindow = new Float32Array(fftSize);
for (let i = 0; i < fftSize; i++)
  hannWindow[i] = 0.5 * (1 - Math.cos((2 * Math.PI * i) / fftSize));
const frames = new Float32Array(numFrames * numBins);   // throws for negative length
const real = new Float32Array(fftSize); const imag = new Float32Array(fftSize);
let maxMag = 0;
for (let frame = 0; frame < numFrames; frame++) { ...window, fft, magnitudes... }
if (maxMag > 0) { const invMaxMag = 9 / maxMag;
  for (let i = 0; i < frames.length; i++) frames[i] = Math.log10(1 + frames[i] * invMaxMag); }
```

`Math.floor` of an exact quotient with positive divisor is `Int.fdiv`;
`cosH i F` stands for `Math.cos((2π·i)/F)`, `sqrtF` for `Math.sqrt` and
`log10F` for `Math.log10`.  A signal is a `List ℚ`; the JS read
`channelData[start + i] || 0` (out-of-range reads give `undefined`, coerced
to `0`) is `List.getD`.  `new Float32Array(m)` throws a `RangeError` when the
requested length `m` is negative, which the embedding surfaces as
`Except.error`.
-/

/-- `Math.max(256, Math.floor((channelData.length - fftSize) / targetFrames))`. -/
def hopSize (L F : ℕ) (T : ℤ) : ℤ := max 256 (Int.fdiv ((L : ℤ) - (F : ℤ)) T)

/-- `Math.floor((channelData.length - fftSize) / hopSize)`. -/
def numFrames (L F : ℕ) (T : ℤ) : ℤ := Int.fdiv ((L : ℤ) - (F : ℤ)) (hopSize L F T)

/-- The precomputed Hann window, given by its per-index value
`0.5 * (1 - Math.cos((2π·i)/fftSize))`; the fill loop writes exactly these
values at the indices `< fftSize` that the windowing loop later reads. -/
def hannWindow (cosH : ℕ → ℕ → ℚ) (F : ℕ) : ℕ → ℚ :=
  fun i => (1 / 2) * (1 - cosH i F)

/-- `for (i = 0; i < fftSize; i++) { real[i] = (channelData[start+i] || 0) * hannWindow[i]; imag[i] = 0; }` -/
def windowLoad (signal : List ℚ) (hann : ℕ → ℚ) (start : ℕ) :
    ℕ → ℕ → (ℕ → ℚ) → (ℕ → ℚ) → ((ℕ → ℚ) × (ℕ → ℚ))
  | 0, _, re, im => (re, im)
  | cnt + 1, i, re, im =>
    windowLoad signal hann start cnt (i + 1)
      (upd re i (signal.getD (start + i) 0 * hann i)) (upd im i 0)

/-- `for (i = 0; i < numBins; i++) { mag = sqrt(re[i]² + im[i]²); frames[off+i] = mag; if (mag > maxMag) maxMag = mag; }` -/
def magStore (sqrtF : ℚ → ℚ) (re im : ℕ → ℚ) (off : ℕ) :
    ℕ → ℕ → (ℕ → ℚ) → ℚ → ((ℕ → ℚ) × ℚ)
  | 0, _, frames, maxMag => (frames, maxMag)
  | cnt + 1, i, frames, maxMag =>
    let mag := sqrtF (re i * re i + im i * im i)
    magStore sqrtF re im off cnt (i + 1) (upd frames (off + i) mag)
      (if maxMag < mag then mag else maxMag)

/-- `for (frame = 0; frame < numFrames; frame++) ...` — windowing, FFT and
magnitude extraction for each frame, reusing the `real`/`imag` buffers. -/
def framesGo (c s : ℕ → ℚ) (sqrtF : ℚ → ℚ) (signal : List ℚ) (hann : ℕ → ℚ)
    (F hop nBins : ℕ) :
    ℕ → ℕ → (ℕ → ℚ) → ℚ → (ℕ → ℚ) → (ℕ → ℚ) → ((ℕ → ℚ) × ℚ)
  | 0, _, frames, maxMag, _, _ => (frames, maxMag)
  | cnt + 1, frame, frames, maxMag, re, im =>
    let start := frame * hop
    let off := frame * nBins
    let p := windowLoad signal hann start F 0 re im
    let q := SpectrogramWorker.fft c s F p.1 p.2
    let r := magStore sqrtF q.1 q.2 off nBins 0 frames maxMag
    framesGo c s sqrtF signal hann F hop nBins cnt (frame + 1) r.1 r.2 q.1 q.2

/-- The frame-generation pass: raw magnitude frames plus the running global
maximum magnitude (`hopSize ≥ 256 > 0` and the loop bound, so the `ℕ`-casts
of `hopSize` and `numFrames` are faithful). -/
def rawPass (c s : ℕ → ℚ) (cosH : ℕ → ℕ → ℚ) (sqrtF : ℚ → ℚ)
    (channelData : List ℚ) (fftSize : ℕ) (targetFrames : ℤ) : (ℕ → ℚ) × ℚ :=
  framesGo c s sqrtF channelData (hannWindow cosH fftSize) fftSize
    (hopSize channelData.length fftSize targetFrames).toNat (fftSize / 2)
    (numFrames channelData.length fftSize targetFrames).toNat 0 zeroArr 0 zeroArr zeroArr

/-- `for (i = 0; i < frames.length; i++) frames[i] = log10(1 + frames[i] * invMaxMag);` -/
def normGo (log10F : ℚ → ℚ) (invMaxMag : ℚ) : ℕ → ℕ → (ℕ → ℚ) → (ℕ → ℚ)
  | 0, _, frames => frames
  | cnt + 1, i, frames =>
    normGo log10F invMaxMag cnt (i + 1) (upd frames i (log10F (1 + frames i * invMaxMag)))

/-- The worker's response `{ frames, numFrames, numBins }`; `framesLen` is the
length of the allocated `frames` typed array. -/
structure SpectrogramResponse where
  frames : ℕ → ℚ
  framesLen : ℕ
  numFrames : ℤ
  numBins : ℕ

/-- The body of `self.onmessage`.  `new Float32Array(numFrames * numBins)`
throws a `RangeError` when `numFrames * numBins < 0` (negative typed-array
length), modelled by `Except.error`. -/
def onmessage (c s : ℕ → ℚ) (cosH : ℕ → ℕ → ℚ) (sqrtF log10F : ℚ → ℚ)
    (channelData : List ℚ) (fftSize : ℕ) (targetFrames : ℤ) :
    Except String SpectrogramResponse :=
  let nfZ := numFrames channelData.length fftSize targetFrames
  if nfZ * (fftSize / 2 : ℕ) < 0 then
    Except.error "RangeError: invalid typed array length"
  else
    let total : ℕ := (nfZ * (fftSize / 2 : ℕ)).toNat
    let p := rawPass c s cosH sqrtF channelData fftSize targetFrames
    Except.ok
      { frames := if 0 < p.2 then normGo log10F (9 / p.2) total 0 p.1 else p.1
        framesLen := total
        numFrames := nfZ
        numBins := fftSize / 2 }

end SpectrogramWorker

/-! ## C2: global log-normalization invariant -/

/-- Invariant of the magnitude-accumulation pass: every already-written entry
(index `< B`) lies in `[0, maxMag]`, the running maximum is attained whenever
positive, and the rest of the buffer is still zero. -/
def MagInv (B : ℕ) (frames : ℕ → ℚ) (maxMag : ℚ) : Prop :=
  0 ≤ maxMag
    ∧ (∀ idx, idx < B → 0 ≤ frames idx ∧ frames idx ≤ maxMag)
    ∧ (0 < maxMag → ∃ idx, idx < B ∧ frames idx = maxMag)
    ∧ (∀ idx, B ≤ idx → frames idx = 0)

/-- The response returned by the worker on the C2 witness input (258 zero
samples, `fftSize = 2`, `targetFrames = 1`, `sqrt` modelled by the constant
`1` and `log10` by `x ↦ (x-1)/9`); definitionally equal to the `Except.ok`
payload of `onmessage` on that input. -/
def c2WitnessResponse : SpectrogramWorker.SpectrogramResponse :=
  { frames :=
      (if 0 < (SpectrogramWorker.rawPass (fun _ => 0) (fun _ => 0) (fun _ _ => 0)
              (fun _ => 1) (List.replicate 258 (0 : ℚ)) 2 1).2 then
        (SpectrogramWorker.normGo (fun x => (x - 1) / 9)
          (9 / (SpectrogramWorker.rawPass (fun _ => 0) (fun _ => 0) (fun _ _ => 0)
              (fun _ => 1) (List.replicate 258 (0 : ℚ)) 2 1).2)
          ((SpectrogramWorker.numFrames (List.replicate 258 (0 : ℚ)).length 2 1
              * ((2 / 2 : ℕ) : ℤ)).toNat) 0
          (SpectrogramWorker.rawPass (fun _ => 0) (fun _ => 0) (fun _ _ => 0)
              (fun _ => 1) (List.replicate 258 (0 : ℚ)) 2 1).1)
      else
        (SpectrogramWorker.rawPass (fun _ => 0) (fun _ => 0) (fun _ _ => 0)
            (fun _ => 1) (List.replicate 258 (0 : ℚ)) 2 1).1),
    framesLen :=
      (SpectrogramWorker.numFrames (List.replicate 258 (0 : ℚ)).length 2 1
          * ((2 / 2 : ℕ) : ℤ)).toNat,
    numFrames := SpectrogramWorker.numFrames (List.replicate 258 (0 : ℚ)).length 2 1,
    numBins := 2 / 2 }

namespace BatchProcessor


/-!
## Batch pipeline sequencer (`processAudioBatch`)

Shallow embedding of the asynchronous generator.  Two oracles model its
environment:

* `sig : ℕ → Bool` — the state of `signal.aborted` as a function of the
  number of `sleep` calls made so far.  Between two `await` points the
  JavaScript event loop cannot deliver the abort event, so the signal is
  constant between sleeps and may only flip when the clock advances.
* `work : ℕ → StepOutcome` — the outcome of the `t`-th awaited unit of step
  work (`await sleep(stepDelayMs, signal)`): normal resolution, rejection
  with the abort `DOMException` (the abort listener fired during the wait),
  or rejection with another exception (`err`), which models a failure of the
  real audio transform the generator is designed to await at this point (the
  `catch` block of `processAudioBatch` distinguishes exactly these cases).

The generator itself is the pure function `runBatch`, which returns the list
of emitted `BatchProgressUpdate`s together with the final mutable state
(`fileStates` map, `completedUnits` counter, clock).
-/

structure AudioFile where
  id : String
  name : String
  deriving DecidableEq

structure ResampleOpt where
  enabled : Bool
  targetRate : ℤ
  deriving DecidableEq

structure ConvertOpt where
  enabled : Bool
  format : String
  deriving DecidableEq

structure MonoOpt where
  enabled : Bool
  deriving DecidableEq

structure NormalizeOpt where
  enabled : Bool
  targetDb : ℤ
  deriving DecidableEq

structure TrimOpt where
  enabled : Bool
  usePerFileTrim : Bool
  globalStart : ℚ
  globalEnd : ℚ
  deriving DecidableEq

/-- `ProcessingOptions` — five independently optional steps. -/
structure ProcessingOptions where
  resample : Option ResampleOpt := none
  convert : Option ConvertOpt := none
  mono : Option MonoOpt := none
  normalize : Option NormalizeOpt := none
  trim : Option TrimOpt := none
  deriving DecidableEq

inductive ProcessingStep
  | resample
  | convert
  | mono
  | normalize
  | trim
  deriving DecidableEq

inductive FileStatus
  | queued
  | running
  | success
  | failed
  deriving DecidableEq

structure FileProcessingState where
  fileId : String
  fileName : String
  status : FileStatus
  step : Option ProcessingStep := none
  message : Option String := none
  deriving DecidableEq

structure AggregateProgress where
  totalFiles : ℕ
  queuedFiles : ℕ
  runningFiles : ℕ
  successfulFiles : ℕ
  failedFiles : ℕ
  percent : ℤ
  deriving DecidableEq

structure BatchProgressUpdate where
  file : FileProcessingState
  aggregate : AggregateProgress
  deriving DecidableEq

/-- `const PROCESSING_STEPS = ["resample", "convert", "mono", "normalize", "trim"]` -/
def PROCESSING_STEPS : List ProcessingStep :=
  [ProcessingStep.resample, ProcessingStep.convert, ProcessingStep.mono,
    ProcessingStep.normalize, ProcessingStep.trim]

/-- The `enabled` closure inside `getEnabledSteps`
(`!!options.<step>?.enabled`). -/
def stepEnabled (options : ProcessingOptions) : ProcessingStep → Bool
  | ProcessingStep.resample => (options.resample.map ResampleOpt.enabled).getD false
  | ProcessingStep.convert => (options.convert.map ConvertOpt.enabled).getD false
  | ProcessingStep.mono => (options.mono.map MonoOpt.enabled).getD false
  | ProcessingStep.normalize => (options.normalize.map NormalizeOpt.enabled).getD false
  | ProcessingStep.trim => (options.trim.map TrimOpt.enabled).getD false

/-- `PROCESSING_STEPS.filter(enabled)` -/
def getEnabledSteps (options : ProcessingOptions) : List ProcessingStep :=
  PROCESSING_STEPS.filter (stepEnabled options)

/-- `Map<string, FileProcessingState>` modelled as an association list with
pairwise-distinct keys (file ids are unique in the application). -/
def buildAggregate (fileStates : List (String × FileProcessingState)) (percent : ℤ) :
    AggregateProgress :=
  { totalFiles := fileStates.length
    queuedFiles := fileStates.countP (fun p => p.2.status == FileStatus.queued)
    runningFiles := fileStates.countP (fun p => p.2.status == FileStatus.running)
    successfulFiles := fileStates.countP (fun p => p.2.status == FileStatus.success)
    failedFiles := fileStates.countP (fun p => p.2.status == FileStatus.failed)
    percent := percent }

/-- JS `Math.round` (half-up): `⌊x + 1/2⌋`. -/
def jsRound (q : ℚ) : ℤ := ⌊q + 1 / 2⌋

/-- `const percent = () => (totalUnits === 0 ? 100 : Math.round((completedUnits / totalUnits) * 100));` -/
def percentOf (totalUnits completedUnits : ℕ) : ℤ :=
  if totalUnits = 0 then 100
  else jsRound ((completedUnits : ℚ) / (totalUnits : ℚ) * 100)

/-- `getRequired(map, key)`; the source throws on a missing key, a path that
is unreachable because every processed file id is inserted at batch start —
modelled by a default value. -/
def getRequired (m : List (String × FileProcessingState)) (k : String) :
    FileProcessingState :=
  (m.lookup k).getD { fileId := k, fileName := "", status := FileStatus.queued }

/-- In-place mutation of the state object stored under key `k`. -/
def updateState (m : List (String × FileProcessingState)) (k : String)
    (f : FileProcessingState → FileProcessingState) :
    List (String × FileProcessingState) :=
  m.map (fun p => if p.1 = k then (p.1, f p.2) else p)

/-- `yield emit(fileId)` value: snapshot of the file state (the pure model
needs no defensive copy) plus a freshly computed aggregate. -/
def emit (fileStates : List (String × FileProcessingState))
    (totalUnits completedUnits : ℕ) (fileId : String) : BatchProgressUpdate :=
  { file := getRequired fileStates fileId
    aggregate := buildAggregate fileStates (percentOf totalUnits completedUnits) }

/-- Outcome of one awaited unit of step work. -/
inductive StepOutcome
  | ok
  | abortErr
  | err (msg : Option String)
  deriving DecidableEq

/-- A thrown value: the abort `DOMException` or any other exception (with
`some msg` when it is an `Error` carrying a message). -/
inductive BatchErr
  | abortError
  | failure (msg : Option String)
  deriving DecidableEq

/-- `isAbortError(err)` -/
def isAbortError : BatchErr → Bool
  | BatchErr.abortError => true
  | BatchErr.failure _ => false

/-- `isAbortError(err) ? "Processing aborted" : err instanceof Error ? err.message : "Processing failed"` -/
def errMessage : BatchErr → String
  | BatchErr.abortError => "Processing aborted"
  | BatchErr.failure m => m.getD "Processing failed"

/-- The generator's mutable state: the `fileStates` map, `completedUnits`,
and the number of sleeps performed so far (the oracle clock). -/
structure BatchSt where
  states : List (String × FileProcessingState)
  completed : ℕ
  clock : ℕ
  deriving DecidableEq

/-- The inner `for (const step of enabledSteps)` loop of one file's `try`
block: check cancellation, set `step`, emit, await the unit of work, bump
`completedUnits`, emit again; an exception aborts the loop and propagates. -/
def runSteps (sig : ℕ → Bool) (work : ℕ → StepOutcome) (totalUnits : ℕ)
    (fileId : String) :
    List ProcessingStep → BatchSt →
      List BatchProgressUpdate × BatchSt × Except BatchErr Unit
  | [], st => ([], st, Except.ok ())
  | step :: rest, st =>
    if sig st.clock then ([], st, Except.error BatchErr.abortError)
    else
      let states1 := updateState st.states fileId (fun s0 => { s0 with step := some step })
      let u1 := emit states1 totalUnits st.completed fileId
      match work st.clock with
      | StepOutcome.abortErr =>
        ([u1], { st with states := states1, clock := st.clock + 1 },
          Except.error BatchErr.abortError)
      | StepOutcome.err m =>
        ([u1], { st with states := states1, clock := st.clock + 1 },
          Except.error (BatchErr.failure m))
      | StepOutcome.ok =>
        let st1 : BatchSt :=
          { states := states1, completed := st.completed + 1, clock := st.clock + 1 }
        let u2 := emit states1 totalUnits st1.completed fileId
        let res := runSteps sig work totalUnits fileId rest st1
        (u1 :: u2 :: res.1, res.2)

/-- The `try` block for one file: cancellation check, transition to
`running`, the no-step shortcut, the step loop, and the final `success`
transition.  Returns the emitted updates, the new state, and `Except.error`
when an exception escapes to the caller's `catch`. -/
def runFile (sig : ℕ → Bool) (work : ℕ → StepOutcome) (totalUnits : ℕ)
    (enabledSteps : List ProcessingStep) (file : AudioFile) (st : BatchSt) :
    List BatchProgressUpdate × BatchSt × Except BatchErr Unit :=
  if sig st.clock then ([], st, Except.error BatchErr.abortError)
  else
    let states1 := updateState st.states file.id
      (fun s0 =>
        { s0 with
          status := FileStatus.running
          message := none
          step := enabledSteps.head? })
    let u1 := emit states1 totalUnits st.completed file.id
    if enabledSteps.isEmpty then
      let states2 := updateState states1 file.id
        (fun s0 => { s0 with status := FileStatus.success, step := none })
      let st1 : BatchSt :=
        { states := states2, completed := st.completed + 1, clock := st.clock }
      let u2 := emit states2 totalUnits st1.completed file.id
      ([u1, u2], st1, Except.ok ())
    else
      let res := runSteps sig work totalUnits file.id enabledSteps
        { st with states := states1 }
      match res.2.2 with
      | Except.ok _ =>
        let states2 := updateState res.2.1.states file.id
          (fun s0 => { s0 with status := FileStatus.success, step := none })
        let u2 := emit states2 totalUnits res.2.1.completed file.id
        (u1 :: res.1 ++ [u2], { res.2.1 with states := states2 }, Except.ok ())
      | Except.error e => (u1 :: res.1, res.2.1, Except.error e)

/-- The `for (const file of files)` loop with its `catch`: a caught exception
marks the file `failed` with the appropriate message and emits; an abort (or
an aborted signal) then breaks out of the loop, any other failure continues
with the next file. -/
def runBatch (sig : ℕ → Bool) (work : ℕ → StepOutcome) (totalUnits : ℕ)
    (enabledSteps : List ProcessingStep) :
    List AudioFile → BatchSt → List BatchProgressUpdate × BatchSt
  | [], st => ([], st)
  | file :: rest, st =>
    let res := runFile sig work totalUnits enabledSteps file st
    match res.2.2 with
    | Except.ok _ =>
      let res2 := runBatch sig work totalUnits enabledSteps rest res.2.1
      (res.1 ++ res2.1, res2.2)
    | Except.error e =>
      let st1 := res.2.1
      let states2 := updateState st1.states file.id
        (fun s0 =>
          { s0 with
            status := FileStatus.failed
            step := none
            message := some (errMessage e) })
      let uf := emit states2 totalUnits st1.completed file.id
      let st2 : BatchSt := { st1 with states := states2 }
      if isAbortError e || sig st2.clock then (res.1 ++ [uf], st2)
      else
        let res2 := runBatch sig work totalUnits enabledSteps rest st2
        (res.1 ++ uf :: res2.1, res2.2)

/-- The initial per-file state inserted at batch start. -/
def initFileState (file : AudioFile) : FileProcessingState :=
  { fileId := file.id, fileName := file.name, status := FileStatus.queued }

/-- `new Map(files.map((file) => [file.id, {...}]))` -/
def initStates (files : List AudioFile) : List (String × FileProcessingState) :=
  files.map (fun file => (file.id, initFileState file))

/-- `totalUnits = files.length * Math.max(enabledSteps.length, 1)` -/
def totalUnitsOf (files : List AudioFile) (options : ProcessingOptions) : ℕ :=
  files.length * max (getEnabledSteps options).length 1

/-- `processAudioBatch(files, options, config)` as a pure function of the two
oracles: the list of emitted updates and the final state. -/
def processAudioBatch (sig : ℕ → Bool) (work : ℕ → StepOutcome)
    (files : List AudioFile) (options : ProcessingOptions) :
    List BatchProgressUpdate × BatchSt :=
  runBatch sig work (totalUnitsOf files options) (getEnabledSteps options) files
    { states := initStates files, completed := 0, clock := 0 }

/-- Every stored state's `fileId` field equals its map key (true initially
and preserved by all the sequencer's updates). -/
def KeysOK (m : List (String × FileProcessingState)) : Prop :=
  ∀ p ∈ m, p.2.fileId = p.1

/-- Concrete batch refuting C6's percentage clause: two files, one enabled
step (`mono`). -/
def c6Files : List AudioFile :=
  [{ id := "f1", name := "a.wav" }, { id := "f2", name := "b.wav" }]

/-- Step-work oracle for the C6 counterexample: the first awaited unit (file
1's `mono` step) raises `new Error("boom")`; every later unit succeeds. -/
def c6Work : ℕ → StepOutcome :=
  fun t => if t = 0 then StepOutcome.err (some "boom") else StepOutcome.ok

/-- Options enabling exactly one step (`mono`). -/
def c6Opts : ProcessingOptions := { mono := some { enabled := true } }

/-! ## C5: global cancellation -/

/-- The batch state reached after the `for` loop has run the given prefix of
files (assuming each of them completed its `try` block without throwing). -/
def stAfter (sig : ℕ → Bool) (work : ℕ → StepOutcome) (tu : ℕ)
    (ks : List ProcessingStep) : List AudioFile → BatchSt → BatchSt
  | [], st => st
  | f :: rest, st => stAfter sig work tu ks rest (runFile sig work tu ks f st).2.1

/-- The given prefix of files all complete their `try` blocks without
throwing (so the loop reaches the file after the prefix). -/
def CleanPrefix (sig : ℕ → Bool) (work : ℕ → StepOutcome) (tu : ℕ)
    (ks : List ProcessingStep) : List AudioFile → BatchSt → Prop
  | [], _ => True
  | f :: rest, st => (runFile sig work tu ks f st).2.2 = Except.ok ()
      ∧ CleanPrefix sig work tu ks rest (runFile sig work tu ks f st).2.1

/-- Files realising the spec's cancellation scenario: file 1 before the
aborted file. -/
def c5Pre : List AudioFile := [{ id := "f1", name := "a1.wav" }]

/-- The file in flight when cancellation triggers. -/
def c5Fi : AudioFile := { id := "f2", name := "a2.wav" }

/-- Files 3-5, queued behind the aborted file. -/
def c5Post : List AudioFile :=
  [{ id := "f3", name := "a3.wav" }, { id := "f4", name := "a4.wav" },
   { id := "f5", name := "a5.wav" }]

/-- Step-work oracle: the second awaited sleep (file 2's first step) rejects
with the abort `DOMException`; every other unit succeeds. -/
def c5Work : ℕ → StepOutcome :=
  fun t => if t = 1 then StepOutcome.abortErr else StepOutcome.ok

/-- Options enabling exactly one step (`mono`). -/
def c5Opts : ProcessingOptions := { mono := some { enabled := true } }

/-! ## C7: sequential processing -/

/-- The map's keys are pairwise distinct (file ids are unique). -/
def KeysNodup (m : List (String × FileProcessingState)) : Prop :=
  (m.map Prod.fst).Nodup

/-- Every entry currently in `running` status sits under key `k`. -/
def OnlyRunning (m : List (String × FileProcessingState)) (k : String) : Prop :=
  ∀ p ∈ m, p.2.status = FileStatus.running → p.1 = k

/-- No entry is in `running` status. -/
def NoRunning (m : List (String × FileProcessingState)) : Prop :=
  ∀ p ∈ m, p.2.status ≠ FileStatus.running

/-- `Blocked us ks`: the sequence `us` consists of contiguous blocks of
repeated keys, following the order of `ks` (blocks may be empty). -/
inductive Blocked : List String → List String → Prop
  | nil (ks : List String) : Blocked [] ks
  | skip (us : List String) (k : String) (ks : List String) :
      Blocked us ks → Blocked us (k :: ks)
  | cons (us : List String) (k : String) (ks : List String) :
      Blocked us (k :: ks) → Blocked (k :: us) (k :: ks)

/-- Concrete batch for the C7 witness. -/
def c7Files : List AudioFile :=
  [{ id := "g1", name := "b1.wav" }, { id := "g2", name := "b2.wav" }]

end BatchProcessor

@[simp] theorem upd_same (f : ℕ → ℚ) (i : ℕ) (v : ℚ) : upd f i v i = v := by
  simp [upd]

theorem upd_ne (f : ℕ → ℚ) {i m : ℕ} (v : ℚ) (h : m ≠ i) : upd f i v m = f m := by
  simp [upd, h]

theorem upd_eq_self (f : ℕ → ℚ) (i : ℕ) {v : ℚ} (h : f i = v) : upd f i v = f := by
  funext m
  by_cases hm : m = i <;> simp [upd, hm, h.symm]

@[simp] theorem upd_self_eq (f : ℕ → ℚ) (i : ℕ) : upd f i (f i) = f :=
  upd_eq_self f i rfl

@[simp] theorem zeroArr_apply (m : ℕ) : zeroArr m = 0 := rfl

@[simp] theorem upd_zeroArr (i : ℕ) : upd zeroArr i 0 = zeroArr :=
  upd_eq_self _ _ rfl

theorem impulse_eq_onesBelow_one : impulse = onesBelow 1 := by
  funext m
  simp only [impulse, onesBelow, Nat.lt_one_iff]

theorem onesBelow_lt {L m : ℕ} (h : m < L) : onesBelow L m = 1 := by simp [onesBelow, h]

theorem onesBelow_ge {L m : ℕ} (h : L ≤ m) : onesBelow L m = 0 := by
  simp [onesBelow, Nat.not_lt.mpr h]

theorem upd_onesBelow (L : ℕ) : upd (onesBelow L) L 1 = onesBelow (L + 1) := by
  funext m
  by_cases hm : m = L
  · simp [upd, hm, onesBelow]
  · simp only [upd, if_neg hm, onesBelow]
    by_cases hlt : m < L
    · rw [if_pos hlt, if_pos (by omega)]
    · rw [if_neg hlt, if_neg (by omega)]


/-! ## Equivalence of the two FFTs (shared helpers) -/

theorem butterflyGo_lib_eq_worker (c s : ℕ → ℚ) (len i halfLen : ℕ) :
    ∀ cnt j w re im,
      FFTLib.butterflyGo c s len i halfLen cnt j w re im
        = SpectrogramWorker.butterflyGo i halfLen (c len, s len) cnt j w re im := by
  intro cnt
  induction cnt with
  | zero => intro j w re im; rfl
  | succ k ih =>
    intro j w re im
    simp only [FFTLib.butterflyGo, SpectrogramWorker.butterflyGo]
    exact ih _ _ _ _

theorem blockGo_lib_eq_worker (c s : ℕ → ℚ) (n len halfLen : ℕ) :
    ∀ fuel i re im,
      FFTLib.blockGo c s n len halfLen fuel i re im
        = SpectrogramWorker.blockGo n len halfLen (c len, s len) fuel i re im := by
  intro fuel
  induction fuel with
  | zero => intro i re im; rfl
  | succ k ih =>
    intro i re im
    simp only [FFTLib.blockGo, SpectrogramWorker.blockGo, butterflyGo_lib_eq_worker]
    split
    · exact ih _ _ _
    · rfl

theorem stageGo_lib_eq_worker (c s : ℕ → ℚ) (n : ℕ) :
    ∀ fuel len re im,
      FFTLib.stageGo c s n fuel len re im
        = SpectrogramWorker.stageGo c s n fuel len re im := by
  intro fuel
  induction fuel with
  | zero => intro len re im; rfl
  | succ k ih =>
    intro len re im
    simp only [FFTLib.stageGo, SpectrogramWorker.stageGo, blockGo_lib_eq_worker]
    split
    · exact ih _ _ _
    · rfl

theorem fft_lib_eq_worker (c s : ℕ → ℚ) (n : ℕ) (re im : ℕ → ℚ) :
    FFTLib.fft c s n re im = SpectrogramWorker.fft c s n re im := by
  simp only [FFTLib.fft, SpectrogramWorker.fft, stageGo_lib_eq_worker]

/-! ## The FFT of the impulse input

On the impulse (`real[0] = 1`, everything else `0`) every butterfly combines a
lower half of ones with an upper half of zeros, so the twiddle factors are
multiplied by zero throughout and the output is exactly all-ones — for *any*
values of the trigonometric functions, hence in particular for the real
`Math.cos` / `Math.sin`. -/

theorem swap_eq_self (f : ℕ → ℚ) (i j : ℕ) (h : f i = f j) :
    upd (upd f i (f j)) j (f i) = f := by
  funext m
  by_cases hmj : m = j
  · simp [upd, hmj, h]
  · by_cases hmi : m = i
    · simp [upd, hmj, hmi, h]
    · simp [upd, hmj, hmi]

theorem bitrevGo_ones (n : ℕ) :
    ∀ cnt i j, 1 ≤ i →
      SpectrogramWorker.bitrevGo n cnt i j (onesBelow 1) zeroArr
        = (onesBelow 1, zeroArr) := by
  intro cnt
  induction cnt with
  | zero => intro i j _; rfl
  | succ k ih =>
    intro i j hi
    simp only [SpectrogramWorker.bitrevGo]
    by_cases hij : i < j
    · rw [if_pos hij, if_pos hij,
        swap_eq_self (onesBelow 1) i j (by rw [onesBelow_ge hi, onesBelow_ge (by omega)]),
        swap_eq_self zeroArr i j rfl]
      exact ih (i + 1) _ (by omega)
    · rw [if_neg hij, if_neg hij]
      exact ih (i + 1) _ (by omega)

theorem bitReversal_impulse (n : ℕ) :
    SpectrogramWorker.bitReversal n (onesBelow 1) zeroArr = (onesBelow 1, zeroArr) := by
  unfold SpectrogramWorker.bitReversal
  cases hn : n - 1 with
  | zero => rfl
  | succ k =>
    simp only [SpectrogramWorker.bitrevGo]
    rw [if_neg (by omega), if_neg (by omega)]
    exact bitrevGo_ones n k 1 _ (by omega)

theorem butterflyGo_ones (halfLen : ℕ) (wpr : ℚ × ℚ) :
    ∀ cnt j w, j + cnt ≤ halfLen →
      SpectrogramWorker.butterflyGo 0 halfLen wpr cnt j w
          (onesBelow (halfLen + j)) zeroArr
        = (onesBelow (halfLen + cnt + j), zeroArr) := by
  intro cnt
  induction cnt with
  | zero => intro j w _; rfl
  | succ k ih =>
    intro j w hjk
    have hodd : onesBelow (halfLen + j) (halfLen + j) = 0 := onesBelow_ge (le_refl _)
    have heven : onesBelow (halfLen + j) j = 1 := onesBelow_lt (by omega)
    simp only [SpectrogramWorker.butterflyGo, Nat.zero_add, Nat.add_comm j halfLen,
      hodd, heven, zeroArr_apply, mul_zero, sub_zero, add_zero, upd_zeroArr,
      upd_onesBelow, upd_self_eq]
    rw [show halfLen + j + 1 = halfLen + (j + 1) from Nat.add_assoc halfLen j 1,
      ih (j + 1) _ (by omega)]
    have harith : halfLen + k + (j + 1) = halfLen + (k + 1) + j := by omega
    rw [harith]

theorem butterflyGo_preserve (halfLen L : ℕ) (wpr : ℚ × ℚ) :
    ∀ cnt i j w, L ≤ i →
      SpectrogramWorker.butterflyGo i halfLen wpr cnt j w (onesBelow L) zeroArr
        = (onesBelow L, zeroArr) := by
  intro cnt
  induction cnt with
  | zero => intro i j w _; rfl
  | succ k ih =>
    intro i j w hLi
    have hev : onesBelow L (i + j) = 0 := onesBelow_ge (by omega)
    have hod : onesBelow L (i + j + halfLen) = 0 := onesBelow_ge (by omega)
    have h1 : upd (onesBelow L) (i + j + halfLen) 0 = onesBelow L :=
      upd_eq_self _ _ hod
    have h2 : upd (onesBelow L) (i + j) 0 = onesBelow L :=
      upd_eq_self _ _ hev
    simp only [SpectrogramWorker.butterflyGo, hev, hod, zeroArr_apply,
      mul_zero, sub_zero, add_zero, h1, h2, upd_zeroArr]
    exact ih i (j + 1) _ hLi

theorem blockGo_preserve (n len halfLen L : ℕ) (wpr : ℚ × ℚ) :
    ∀ fuel i, L ≤ i →
      SpectrogramWorker.blockGo n len halfLen wpr fuel i (onesBelow L) zeroArr
        = (onesBelow L, zeroArr) := by
  intro fuel
  induction fuel with
  | zero => intro i _; rfl
  | succ k ih =>
    intro i hLi
    simp only [SpectrogramWorker.blockGo]
    split
    · rw [butterflyGo_preserve halfLen L wpr halfLen i 0 (1, 0) hLi]
      exact ih (i + len) (by omega)
    · rfl

theorem blockGo_stage (n len halfLen : ℕ) (wpr : ℚ × ℚ)
    (hlen : len = 2 * halfLen) (hn : 0 < n) :
    ∀ fuel, 0 < fuel →
      SpectrogramWorker.blockGo n len halfLen wpr fuel 0
          (onesBelow halfLen) zeroArr
        = (onesBelow len, zeroArr) := by
  intro fuel hfuel
  obtain ⟨f', rfl⟩ : ∃ f', fuel = f' + 1 := ⟨fuel - 1, by omega⟩
  have hbf := butterflyGo_ones halfLen wpr halfLen 0 (1, 0) (by omega)
  simp only [Nat.add_zero] at hbf
  simp only [SpectrogramWorker.blockGo, if_pos hn, hbf]
  have hhl : halfLen + halfLen = len := by omega
  rw [hhl]
  exact blockGo_preserve n len halfLen len wpr f' (0 + len) (by omega)

theorem stageGo_ones (c s : ℕ → ℚ) (K : ℕ) :
    ∀ fuel m, 1 ≤ m → m ≤ K + 1 → K + 1 - m ≤ fuel →
      SpectrogramWorker.stageGo c s (2 ^ K) fuel (2 ^ m)
          (onesBelow (2 ^ (m - 1))) zeroArr
        = (onesBelow (2 ^ K), zeroArr) := by
  intro fuel
  induction fuel with
  | zero =>
    intro m h1 hK hf
    have hm : m = K + 1 := by omega
    subst hm
    rfl
  | succ f ih =>
    intro m h1 hK hf
    simp only [SpectrogramWorker.stageGo]
    by_cases hle : 2 ^ m ≤ 2 ^ K
    · rw [if_pos hle]
      have hmK : m ≤ K := by
        by_contra hcon
        push_neg at hcon
        have hup : (2 : ℕ) ^ (K + 1) ≤ 2 ^ m := Nat.pow_le_pow_right (by norm_num) hcon
        have hp : 0 < (2 : ℕ) ^ K := pow_pos (by norm_num) K
        rw [pow_succ] at hup
        omega
      have hhalf : 2 ^ m / 2 = 2 ^ (m - 1) := by
        obtain ⟨m', rfl⟩ : ∃ m', m = m' + 1 := ⟨m - 1, by omega⟩
        rw [pow_succ]
        simp
      have hdouble : (2 : ℕ) ^ m = 2 * 2 ^ (m - 1) := by
        obtain ⟨m', rfl⟩ : ∃ m', m = m' + 1 := ⟨m - 1, by omega⟩
        rw [pow_succ]
        ring_nf
        simp
      rw [hhalf,
        blockGo_stage (2 ^ K) (2 ^ m) (2 ^ (m - 1)) _ hdouble
          (pow_pos (by norm_num) K) (2 ^ K) (pow_pos (by norm_num) K)]
      have h2 : 2 ^ m * 2 = 2 ^ (m + 1) := (pow_succ 2 m).symm
      rw [h2]
      exact ih (m + 1) (by omega) (by omega) (by omega)
    · rw [if_neg hle]
      have hm : m = K + 1 := by
        have hKm : K < m := by
          by_contra hcon
          push_neg at hcon
          exact hle (Nat.pow_le_pow_right (by norm_num) hcon)
        omega
      subst hm
      rfl

theorem fft_impulse (c s : ℕ → ℚ) (K : ℕ) :
    SpectrogramWorker.fft c s (2 ^ K) impulse zeroArr
      = (onesBelow (2 ^ K), zeroArr) := by
  simp only [SpectrogramWorker.fft]
  rcases Nat.eq_zero_or_pos K with hK | hK
  · subst hK
    rw [if_pos (by norm_num), impulse_eq_onesBelow_one]
    norm_num
  · have h2 : 1 < 2 ^ K := by
      calc 1 < 2 ^ 1 := by norm_num
        _ ≤ 2 ^ K := Nat.pow_le_pow_right (by norm_num) hK
    rw [if_neg (by omega), impulse_eq_onesBelow_one, bitReversal_impulse]
    have hKfuel : K + 1 - 1 ≤ 2 ^ K := by
      have := Nat.lt_two_pow K
      omega
    exact stageGo_ones c s K (2 ^ K) 1 (le_refl 1) (by omega) hKfuel

/-- **C1.** For every power-of-two length `N = 2^K`, applying `fft` (both the
spectrogram worker's inline version and the exported library version, and for
any values of the trigonometric twiddle functions `c`, `s`, hence for the real
cosine/sine) to the impulse input (`real[0] = 1`, all other real entries `0`,
`imag` all `0`) yields a spectrum with `real[i]² + imag[i]² = 1` — i.e. the
magnitude `sqrt(real[i]² + imag[i]²)` is exactly `1` — at every bin
`i < N`. -/
theorem c1_fft_impulse_flat_spectrum (c s : ℕ → ℚ) (K i : ℕ) (hi : i < 2 ^ K) :
    ((FFTLib.fft c s (2 ^ K) impulse zeroArr).1 i) ^ 2
        + ((FFTLib.fft c s (2 ^ K) impulse zeroArr).2 i) ^ 2 = 1
      ∧ ((SpectrogramWorker.fft c s (2 ^ K) impulse zeroArr).1 i) ^ 2
        + ((SpectrogramWorker.fft c s (2 ^ K) impulse zeroArr).2 i) ^ 2 = 1 := by
  rw [fft_lib_eq_worker, fft_impulse]
  constructor <;> norm_num [onesBelow_lt hi, zeroArr_apply]

/-- Witness for C1 at `N = 2³ = 8`, bin `i = 5`, twiddle functions constantly
zero. -/
theorem c1_fft_impulse_flat_spectrum_witness :
    5 < 2 ^ 3
      ∧ (((FFTLib.fft (fun _ => 0) (fun _ => 0) (2 ^ 3) impulse zeroArr).1 5) ^ 2
          + ((FFTLib.fft (fun _ => 0) (fun _ => 0) (2 ^ 3) impulse zeroArr).2 5) ^ 2 = 1
        ∧ ((SpectrogramWorker.fft (fun _ => 0) (fun _ => 0) (2 ^ 3) impulse zeroArr).1 5) ^ 2
          + ((SpectrogramWorker.fft (fun _ => 0) (fun _ => 0) (2 ^ 3) impulse zeroArr).2 5) ^ 2 = 1) :=
  ⟨by norm_num, c1_fft_impulse_flat_spectrum (fun _ => 0) (fun _ => 0) 3 5 (by norm_num)⟩

/-- **C9.** The inline `fft` of the spectrogram worker (per-stage rotation
computed once and twiddles advanced by complex multiplication) and the
exported library `fft` (which evaluates `Math.cos`/`Math.sin` of the same
per-stage angle inside the butterfly loop) compute identical real and
imaginary outputs on every pair of equal-length inputs, for every choice of
the trigonometric functions. -/
theorem c9_worker_fft_equals_library_fft (c s : ℕ → ℚ) (n : ℕ) (re im : ℕ → ℚ) :
    FFTLib.fft c s n re im = SpectrogramWorker.fft c s n re im :=
  fft_lib_eq_worker c s n re im


/-! ## C3: frame count and behaviour on short signals -/

/-- Counterexample to **C3**: a signal shorter than `fftSize` does *not*
degrade to an empty result — with `L = 0 < 1024 = F` and `T = 100` the worker
computes `hopSize = 256`, `numFrames = ⌊-1024/256⌋ = -4`, and
`new Float32Array(numFrames * numBins) = new Float32Array(-2048)` throws a
`RangeError` instead of returning. -/
theorem c3_counterexample_short_signal_raises :
    SpectrogramWorker.onmessage (fun _ => 0) (fun _ => 0) (fun _ _ => 0)
        (fun _ => 0) (fun _ => 0) [] 1024 100
      = Except.error "RangeError: invalid typed array length" := rfl

/-- **C3 (amended).** For every signal of length `L`, fftSize `F ≥ 2` (any
power of two in practice) and target frame count `T ≥ 1`: `numFrames` is
`⌊(L - F) / hopSize⌋` with `hopSize = max(256, ⌊(L-F)/T⌋)`; when `L ≥ F` the
generator returns `numFrames ≥ 0` and a frame buffer of `numFrames * numBins`
entries; but when `L < F` it does **not** return an empty result — the
negative `numFrames` makes the `Float32Array` allocation throw a
`RangeError`. -/
theorem c3_amended_frame_count_and_short_signal_error
    (L F : ℕ) (T : ℤ) (hT : 1 ≤ T) (hF : 2 ≤ F)
    (c s : ℕ → ℚ) (cosH : ℕ → ℕ → ℚ) (sqrtF log10F : ℚ → ℚ)
    (signal : List ℚ) (hL : signal.length = L) :
    SpectrogramWorker.numFrames L F T
        = Int.fdiv ((L : ℤ) - (F : ℤ)) (SpectrogramWorker.hopSize L F T)
      ∧ (F ≤ L →
          ∃ r, SpectrogramWorker.onmessage c s cosH sqrtF log10F signal F T
                = Except.ok r
            ∧ r.numFrames = SpectrogramWorker.numFrames L F T
            ∧ 0 ≤ r.numFrames
            ∧ r.framesLen = (SpectrogramWorker.numFrames L F T).toNat * (F / 2))
      ∧ (L < F →
          SpectrogramWorker.onmessage c s cosH sqrtF log10F signal F T
            = Except.error "RangeError: invalid typed array length") := by
  subst hL
  refine ⟨rfl, ?_, ?_⟩
  · intro hFL
    have hsub : (0 : ℤ) ≤ (signal.length : ℤ) - (F : ℤ) := by
      have : (F : ℤ) ≤ (signal.length : ℤ) := by exact_mod_cast hFL
      omega
    have hhop : (0 : ℤ) < SpectrogramWorker.hopSize signal.length F T := by
      have := le_max_left 256 (Int.fdiv ((signal.length : ℤ) - (F : ℤ)) T)
      unfold SpectrogramWorker.hopSize
      omega
    have hnf : 0 ≤ SpectrogramWorker.numFrames signal.length F T := by
      unfold SpectrogramWorker.numFrames
      exact Int.fdiv_nonneg hsub (le_of_lt hhop)
    have hcond : ¬ (SpectrogramWorker.numFrames signal.length F T * ((F / 2 : ℕ) : ℤ) < 0) := by
      push_neg
      exact mul_nonneg hnf (by positivity)
    simp only [SpectrogramWorker.onmessage, if_neg hcond]
    refine ⟨_, rfl, rfl, hnf, ?_⟩
    show (SpectrogramWorker.numFrames signal.length F T * ((F / 2 : ℕ) : ℤ)).toNat
      = (SpectrogramWorker.numFrames signal.length F T).toNat * (F / 2)
    obtain ⟨k, hk⟩ : ∃ k : ℕ, SpectrogramWorker.numFrames signal.length F T = (k : ℤ) :=
      ⟨(SpectrogramWorker.numFrames signal.length F T).toNat,
        (Int.toNat_of_nonneg hnf).symm⟩
    rw [hk, ← Nat.cast_mul, Int.toNat_natCast, Int.toNat_natCast]
  · intro hLF
    have hneg : (signal.length : ℤ) - (F : ℤ) < 0 := by
      have : (signal.length : ℤ) < (F : ℤ) := by exact_mod_cast hLF
      omega
    have hfd : Int.fdiv ((signal.length : ℤ) - (F : ℤ)) T < 0 :=
      Int.fdiv_neg' hneg (by omega)
    have hhop : SpectrogramWorker.hopSize signal.length F T = 256 := by
      unfold SpectrogramWorker.hopSize
      omega
    have hnf : SpectrogramWorker.numFrames signal.length F T < 0 := by
      unfold SpectrogramWorker.numFrames
      rw [hhop]
      exact Int.fdiv_neg' hneg (by norm_num)
    have hbins : (0 : ℤ) < ((F / 2 : ℕ) : ℤ) := by
      have : 1 ≤ F / 2 := by omega
      exact_mod_cast this
    have hcond : SpectrogramWorker.numFrames signal.length F T * ((F / 2 : ℕ) : ℤ) < 0 :=
      mul_neg_of_neg_of_pos hnf hbins
    simp only [SpectrogramWorker.onmessage, if_pos hcond]

/-- Witness for the amended C3 at `L = 1030 ≥ F = 1024`, `T = 100`. -/
theorem c3_amended_frame_count_and_short_signal_error_witness :
    (1 : ℤ) ≤ 100 ∧ 2 ≤ 1024 ∧ (List.replicate 1030 (0 : ℚ)).length = 1030
      ∧ (SpectrogramWorker.numFrames 1030 1024 100
          = Int.fdiv ((1030 : ℤ) - (1024 : ℤ)) (SpectrogramWorker.hopSize 1030 1024 100)
        ∧ (1024 ≤ 1030 →
            ∃ r, SpectrogramWorker.onmessage (fun _ => 0) (fun _ => 0) (fun _ _ => 0)
                  (fun _ => 0) (fun _ => 0) (List.replicate 1030 (0 : ℚ)) 1024 100
                  = Except.ok r
              ∧ r.numFrames = SpectrogramWorker.numFrames 1030 1024 100
              ∧ 0 ≤ r.numFrames
              ∧ r.framesLen = (SpectrogramWorker.numFrames 1030 1024 100).toNat * (1024 / 2))
        ∧ (1030 < 1024 →
            SpectrogramWorker.onmessage (fun _ => 0) (fun _ => 0) (fun _ _ => 0)
                (fun _ => 0) (fun _ => 0) (List.replicate 1030 (0 : ℚ)) 1024 100
              = Except.error "RangeError: invalid typed array length")) :=
  ⟨by decide, by decide, by rw [List.length_replicate],
    c3_amended_frame_count_and_short_signal_error 1030 1024 100 (by decide) (by decide)
      (fun _ => 0) (fun _ => 0) (fun _ _ => 0) (fun _ => 0) (fun _ => 0)
      (List.replicate 1030 (0 : ℚ)) (by rw [List.length_replicate])⟩

/-- **C10.** Whenever `numFrames ≥ 1`, every sample index `start + i` read by
the windowing loop (`start = f * hopSize`, `f < numFrames`, `i < fftSize`) is
strictly below the signal length, so the out-of-range zero-fill fallback of
`channelData[start + i] || 0` is never taken. -/
theorem c10_window_reads_in_bounds (L F : ℕ) (T : ℤ) (f i : ℕ)
    (h1 : 1 ≤ SpectrogramWorker.numFrames L F T)
    (hf : (f : ℤ) < SpectrogramWorker.numFrames L F T) (hi : i < F) :
    (f : ℤ) * SpectrogramWorker.hopSize L F T + (i : ℤ) < (L : ℤ) := by
  have h256 : (256 : ℤ) ≤ SpectrogramWorker.hopSize L F T := le_max_left _ _
  have hpos : (0 : ℤ) < SpectrogramWorker.hopSize L F T := by omega
  have hq : SpectrogramWorker.numFrames L F T
      = ((L : ℤ) - (F : ℤ)) / SpectrogramWorker.hopSize L F T :=
    Int.fdiv_eq_ediv _ (by omega)
  have hdm := Int.ediv_add_emod ((L : ℤ) - (F : ℤ)) (SpectrogramWorker.hopSize L F T)
  have hr := Int.emod_nonneg ((L : ℤ) - (F : ℤ)) (by omega :
    SpectrogramWorker.hopSize L F T ≠ 0)
  have hmul : SpectrogramWorker.hopSize L F T
      * (((L : ℤ) - (F : ℤ)) / SpectrogramWorker.hopSize L F T) ≤ (L : ℤ) - (F : ℤ) := by
    linarith
  rw [hq] at hf
  have hfq : (f : ℤ) + 1 ≤ ((L : ℤ) - (F : ℤ)) / SpectrogramWorker.hopSize L F T :=
    Int.add_one_le_iff.mpr hf
  have hstep : ((f : ℤ) + 1) * SpectrogramWorker.hopSize L F T
      ≤ (((L : ℤ) - (F : ℤ)) / SpectrogramWorker.hopSize L F T)
        * SpectrogramWorker.hopSize L F T :=
    mul_le_mul_of_nonneg_right hfq (le_of_lt hpos)
  have hexp : ((f : ℤ) + 1) * SpectrogramWorker.hopSize L F T
      = (f : ℤ) * SpectrogramWorker.hopSize L F T + SpectrogramWorker.hopSize L F T :=
    add_one_mul _ _
  have hcomm : (((L : ℤ) - (F : ℤ)) / SpectrogramWorker.hopSize L F T)
      * SpectrogramWorker.hopSize L F T
      = SpectrogramWorker.hopSize L F T
        * (((L : ℤ) - (F : ℤ)) / SpectrogramWorker.hopSize L F T) :=
    mul_comm _ _
  have hiF : (i : ℤ) < (F : ℤ) := by exact_mod_cast hi
  linarith

/-- Witness for C10 at `L = 258`, `F = 2`, `T = 1`, `f = 0`, `i = 1`
(`hopSize = 256`, `numFrames = 1`). -/
theorem c10_window_reads_in_bounds_witness :
    1 ≤ SpectrogramWorker.numFrames 258 2 1
      ∧ (0 : ℤ) < SpectrogramWorker.numFrames 258 2 1
      ∧ 1 < 2
      ∧ (0 : ℤ) * SpectrogramWorker.hopSize 258 2 1 + (1 : ℤ) < (258 : ℤ) :=
  ⟨by decide, by decide, by decide,
    c10_window_reads_in_bounds 258 2 1 0 1 (by decide) (by decide) (by decide)⟩

theorem magStore_inv (sqrtF : ℚ → ℚ) (hsqrt : ∀ x : ℚ, 0 ≤ x → 0 ≤ sqrtF x)
    (re im : ℕ → ℚ) (off : ℕ) :
    ∀ cnt i frames maxMag, MagInv (off + i) frames maxMag →
      MagInv (off + i + cnt)
        (SpectrogramWorker.magStore sqrtF re im off cnt i frames maxMag).1
        (SpectrogramWorker.magStore sqrtF re im off cnt i frames maxMag).2 := by
  intro cnt
  induction cnt with
  | zero => intro i frames maxMag h; exact h
  | succ k ih =>
    intro i frames maxMag h
    obtain ⟨h0, hb, hat, hz⟩ := h
    simp only [SpectrogramWorker.magStore]
    have hmag0 : 0 ≤ sqrtF (re i * re i + im i * im i) :=
      hsqrt _ (add_nonneg (mul_self_nonneg _) (mul_self_nonneg _))
    set mag := sqrtF (re i * re i + im i * im i) with hmagdef
    have hnext : MagInv (off + (i + 1)) (upd frames (off + i) mag)
        (if maxMag < mag then mag else maxMag) := by
      refine ⟨?_, ?_, ?_, ?_⟩
      · split
        · exact hmag0
        · exact h0
      · intro idx hidx
        by_cases hio : idx = off + i
        · subst hio
          rw [upd_same]
          refine ⟨hmag0, ?_⟩
          split
          · exact le_refl _
          · exact not_lt.mp (by assumption)
        · have hlt : idx < off + i := by omega
          rw [upd_ne frames _ hio]
          refine ⟨(hb idx hlt).1, ?_⟩
          split
          · exact le_trans (hb idx hlt).2 (le_of_lt (by assumption))
          · exact (hb idx hlt).2
      · intro hpos
        by_cases hlt : maxMag < mag
        · rw [if_pos hlt]
          exact ⟨off + i, by omega, upd_same _ _ _⟩
        · rw [if_neg hlt] at hpos ⊢
          obtain ⟨idx, hidx, hval⟩ := hat hpos
          exact ⟨idx, by omega, by rw [upd_ne frames _ (by omega)]; exact hval⟩
      · intro idx hidx
        rw [upd_ne frames _ (by omega)]
        exact hz idx (by omega)
    have hres := ih (i + 1) _ _ hnext
    have e : off + i + (k + 1) = off + (i + 1) + k := by omega
    rw [e]
    exact hres

theorem framesGo_inv (c s : ℕ → ℚ) (sqrtF : ℚ → ℚ)
    (hsqrt : ∀ x : ℚ, 0 ≤ x → 0 ≤ sqrtF x)
    (signal : List ℚ) (hann : ℕ → ℚ) (F hop nBins : ℕ) :
    ∀ cnt frame frames maxMag re im, MagInv (frame * nBins) frames maxMag →
      MagInv ((frame + cnt) * nBins)
        (SpectrogramWorker.framesGo c s sqrtF signal hann F hop nBins
          cnt frame frames maxMag re im).1
        (SpectrogramWorker.framesGo c s sqrtF signal hann F hop nBins
          cnt frame frames maxMag re im).2 := by
  intro cnt
  induction cnt with
  | zero => intro frame frames maxMag re im h; exact h
  | succ k ih =>
    intro frame frames maxMag re im h
    simp only [SpectrogramWorker.framesGo]
    rw [show (frame + (k + 1)) * nBins = (frame + 1 + k) * nBins by ring_nf]
    refine ih (frame + 1) _ _ _ _ ?_
    rw [show (frame + 1) * nBins = frame * nBins + 0 + nBins by ring]
    exact magStore_inv sqrtF hsqrt _ _ _ nBins 0 frames maxMag (by simpa using h)

theorem rawPass_inv (c s : ℕ → ℚ) (cosH : ℕ → ℕ → ℚ) (sqrtF : ℚ → ℚ)
    (hsqrt : ∀ x : ℚ, 0 ≤ x → 0 ≤ sqrtF x) (signal : List ℚ) (F : ℕ) (T : ℤ) :
    MagInv ((SpectrogramWorker.numFrames signal.length F T).toNat * (F / 2))
      (SpectrogramWorker.rawPass c s cosH sqrtF signal F T).1
      (SpectrogramWorker.rawPass c s cosH sqrtF signal F T).2 := by
  have hinit : MagInv (0 * (F / 2)) zeroArr 0 :=
    ⟨le_refl 0, fun idx hidx => absurd hidx (by omega),
      fun hpos => absurd hpos (by norm_num), fun idx _ => rfl⟩
  have hres := framesGo_inv c s sqrtF hsqrt signal
    (SpectrogramWorker.hannWindow cosH F) F
    (SpectrogramWorker.hopSize signal.length F T).toNat (F / 2)
    (SpectrogramWorker.numFrames signal.length F T).toNat 0 zeroArr 0 zeroArr zeroArr hinit
  simpa using hres

theorem normGo_get (log10F : ℚ → ℚ) (inv : ℚ) :
    ∀ cnt i frames idx,
      SpectrogramWorker.normGo log10F inv cnt i frames idx
        = if i ≤ idx ∧ idx < i + cnt then log10F (1 + frames idx * inv)
          else frames idx := by
  intro cnt
  induction cnt with
  | zero =>
    intro i frames idx
    simp only [SpectrogramWorker.normGo]
    rw [if_neg (by omega)]
  | succ k ih =>
    intro i frames idx
    simp only [SpectrogramWorker.normGo]
    rw [ih]
    by_cases h1 : i + 1 ≤ idx ∧ idx < i + 1 + k
    · rw [if_pos h1, upd_ne frames _ (by omega), if_pos (by omega)]
    · rw [if_neg h1]
      by_cases h2 : idx = i
      · subst h2
        rw [upd_same, if_pos (by omega)]
      · rw [upd_ne frames _ h2, if_neg (by omega)]

/-- **C2.** After spectrogram generation: whenever the global maximum raw
magnitude `maxMag` is positive (non-silent signal), every value in the frame
buffer lies in `[0, 1]` and the maximum over the buffer equals
`log10(1 + 9) = 1` exactly (it is an upper bound and is attained); when
`maxMag = 0` every frame value is `0`.  Stated for any modelling of
`Math.sqrt` (nonnegative on nonnegatives) and `Math.log10` (monotone, with
`log10 1 = 0` and `log10 10 = 1`) — properties of the real functions. -/
theorem c2_global_log_normalization
    (c s : ℕ → ℚ) (cosH : ℕ → ℕ → ℚ) (sqrtF log10F : ℚ → ℚ)
    (signal : List ℚ) (F : ℕ) (T : ℤ)
    (hsqrt : ∀ x : ℚ, 0 ≤ x → 0 ≤ sqrtF x)
    (hlog1 : log10F 1 = 0) (hlog10 : log10F 10 = 1)
    (hmono : ∀ x y : ℚ, x ≤ y → log10F x ≤ log10F y)
    (r : SpectrogramWorker.SpectrogramResponse)
    (hok : SpectrogramWorker.onmessage c s cosH sqrtF log10F signal F T = Except.ok r) :
    (0 < (SpectrogramWorker.rawPass c s cosH sqrtF signal F T).2 →
        (∀ idx, idx < r.framesLen → 0 ≤ r.frames idx ∧ r.frames idx ≤ 1)
          ∧ ∃ idx, idx < r.framesLen ∧ r.frames idx = 1)
      ∧ ((SpectrogramWorker.rawPass c s cosH sqrtF signal F T).2 = 0 →
          ∀ idx, r.frames idx = 0) := by
  by_cases hcond : SpectrogramWorker.numFrames signal.length F T * ((F / 2 : ℕ) : ℤ) < 0
  · simp only [SpectrogramWorker.onmessage, if_pos hcond] at hok
    exact absurd hok (by simp)
  · simp only [SpectrogramWorker.onmessage, if_neg hcond] at hok
    injection hok with hok2
    subst hok2
    dsimp only
    have htot : (SpectrogramWorker.numFrames signal.length F T * ((F / 2 : ℕ) : ℤ)).toNat
        = (SpectrogramWorker.numFrames signal.length F T).toNat * (F / 2) := by
      push_neg at hcond
      rcases le_or_lt 0 (SpectrogramWorker.numFrames signal.length F T) with h | h
      · obtain ⟨k, hk⟩ : ∃ k : ℕ, SpectrogramWorker.numFrames signal.length F T = (k : ℤ) :=
          ⟨_, (Int.toNat_of_nonneg h).symm⟩
        rw [hk, ← Nat.cast_mul, Int.toNat_natCast, Int.toNat_natCast]
      · rcases Nat.eq_zero_or_pos (F / 2) with hF0 | hF0
        · rw [hF0]
          simp
        · exact absurd (mul_neg_of_neg_of_pos h (by exact_mod_cast hF0)) (not_lt.mpr hcond)

    obtain ⟨hm0, hb, hat, hz⟩ := rawPass_inv c s cosH sqrtF hsqrt signal F T
    constructor
    · intro hpos
      rw [if_pos hpos]
      have h9m : 0 < 9 / (SpectrogramWorker.rawPass c s cosH sqrtF signal F T).2 :=
        div_pos (by norm_num) hpos
      have hmm : (SpectrogramWorker.rawPass c s cosH sqrtF signal F T).2
          * (9 / (SpectrogramWorker.rawPass c s cosH sqrtF signal F T).2) = 9 := by
        rw [mul_comm, div_mul_cancel₀ _ (ne_of_gt hpos)]
      constructor
      · intro idx hidx
        rw [normGo_get, if_pos (by omega)]
        rw [htot] at hidx
        have hv := hb idx hidx
        constructor
        · rw [← hlog1]
          apply hmono
          have := mul_nonneg hv.1 (le_of_lt h9m)
          linarith
        · rw [← hlog10]
          apply hmono
          have hvm := mul_le_mul_of_nonneg_right hv.2 (le_of_lt h9m)
          linarith
      · obtain ⟨idx, hidx, hval⟩ := hat hpos
        refine ⟨idx, by omega, ?_⟩
        rw [normGo_get, if_pos (by omega), hval, hmm]
        norm_num [hlog10]
    · intro hzero
      rw [if_neg (by rw [hzero]; norm_num)]
      intro idx
      rcases lt_or_ge idx
        ((SpectrogramWorker.numFrames signal.length F T).toNat * (F / 2)) with h | h
      · have hv := hb idx h
        refine le_antisymm ?_ hv.1
        rw [← hzero]
        exact hv.2
      · exact hz idx h

set_option maxRecDepth 8000 in
/-- Witness for C2 at the concrete input of `c2WitnessResponse`. -/
theorem c2_global_log_normalization_witness :
    (∀ x : ℚ, 0 ≤ x → 0 ≤ (fun _ : ℚ => (1 : ℚ)) x)
      ∧ (fun x : ℚ => (x - 1) / 9) 1 = 0
      ∧ (fun x : ℚ => (x - 1) / 9) 10 = 1
      ∧ (∀ x y : ℚ, x ≤ y → (fun x : ℚ => (x - 1) / 9) x ≤ (fun x : ℚ => (x - 1) / 9) y)
      ∧ SpectrogramWorker.onmessage (fun _ => 0) (fun _ => 0) (fun _ _ => 0) (fun _ => 1)
          (fun x => (x - 1) / 9) (List.replicate 258 (0 : ℚ)) 2 1
          = Except.ok c2WitnessResponse
      ∧ ((0 < (SpectrogramWorker.rawPass (fun _ => 0) (fun _ => 0) (fun _ _ => 0)
              (fun _ => 1) (List.replicate 258 (0 : ℚ)) 2 1).2 →
            (∀ idx, idx < c2WitnessResponse.framesLen →
                0 ≤ c2WitnessResponse.frames idx ∧ c2WitnessResponse.frames idx ≤ 1)
              ∧ ∃ idx, idx < c2WitnessResponse.framesLen
                  ∧ c2WitnessResponse.frames idx = 1)
          ∧ ((SpectrogramWorker.rawPass (fun _ => 0) (fun _ => 0) (fun _ _ => 0)
                (fun _ => 1) (List.replicate 258 (0 : ℚ)) 2 1).2 = 0 →
              ∀ idx, c2WitnessResponse.frames idx = 0)) :=
  ⟨fun _ _ => by norm_num, by norm_num, by norm_num,
    fun x y h => by dsimp only; linarith, rfl,
    c2_global_log_normalization (fun _ => 0) (fun _ => 0) (fun _ _ => 0) (fun _ => 1)
      (fun x => (x - 1) / 9) (List.replicate 258 (0 : ℚ)) 2 1
      (fun _ _ => by norm_num) (by norm_num) (by norm_num)
      (fun x y h => by dsimp only; linarith) c2WitnessResponse rfl⟩


/-! ## C8: canonical step order -/

/-- **C8.** The enabled steps executed per file (the list `getEnabledSteps`
iterated by `processAudioBatch`'s step loop) are exactly the steps whose
`enabled` flag is set, in the fixed canonical order
`resample → convert → mono → normalize → trim` (a sublist of
`PROCESSING_STEPS`), independent of any toggling order — the options record
carries no ordering information at all. -/
theorem c8_enabled_steps_canonical_order (options : BatchProcessor.ProcessingOptions) :
    BatchProcessor.getEnabledSteps options
        = BatchProcessor.PROCESSING_STEPS.filter (BatchProcessor.stepEnabled options)
      ∧ (BatchProcessor.getEnabledSteps options).Sublist BatchProcessor.PROCESSING_STEPS
      ∧ ∀ st : BatchProcessor.ProcessingStep,
          st ∈ BatchProcessor.getEnabledSteps options
            ↔ BatchProcessor.stepEnabled options st = true := by
  refine ⟨rfl, List.filter_sublist _, ?_⟩
  intro st
  rw [BatchProcessor.getEnabledSteps, List.mem_filter]
  have hmem : st ∈ BatchProcessor.PROCESSING_STEPS := by
    cases st <;> simp [BatchProcessor.PROCESSING_STEPS]
  exact ⟨fun h => h.2, fun h => ⟨hmem, h⟩⟩

namespace BatchProcessor


theorem runSteps_clean (sig : ℕ → Bool) (work : ℕ → StepOutcome) (tu : ℕ) (fid : String)
    (hsig : ∀ t, sig t = false) (hwork : ∀ t, work t = StepOutcome.ok) :
    ∀ steps st, ∃ us st',
      runSteps sig work tu fid steps st = (us, st', Except.ok ())
        ∧ st'.completed = st.completed + steps.length := by
  intro steps
  induction steps with
  | nil => intro st; exact ⟨[], st, rfl, by simp⟩
  | cons step rest ih =>
    intro st
    obtain ⟨us, st', heq, hc⟩ := ih
      { states := updateState st.states fid (fun s0 => { s0 with step := some step })
        completed := st.completed + 1
        clock := st.clock + 1 }
    simp only [runSteps, hsig st.clock, hwork st.clock, Bool.false_eq_true, if_false]
    rw [heq]
    exact ⟨_, _, rfl, by simp at hc ⊢; omega⟩

theorem runFile_clean (sig : ℕ → Bool) (work : ℕ → StepOutcome) (tu : ℕ)
    (ks : List ProcessingStep) (file : AudioFile)
    (hsig : ∀ t, sig t = false) (hwork : ∀ t, work t = StepOutcome.ok) :
    ∀ st, ∃ us st',
      runFile sig work tu ks file st = (us, st', Except.ok ())
        ∧ st'.completed = st.completed + max ks.length 1
        ∧ us.getLast?.map (fun u => u.aggregate.percent)
            = some (percentOf tu st'.completed) := by
  intro st
  by_cases hks : ks.isEmpty
  · obtain rfl : ks = [] := List.isEmpty_iff.mp hks
    simp only [runFile, hsig st.clock, Bool.false_eq_true, if_false,
      List.isEmpty_nil, if_true]
    exact ⟨_, _, rfl, by simp, rfl⟩
  · have hne : ks ≠ [] := fun h => hks (by simp [h])
    have hmax : max ks.length 1 = ks.length := by
      have : 1 ≤ ks.length := List.length_pos.mpr hne
      omega
    obtain ⟨us, st', heq, hc⟩ := runSteps_clean sig work tu file.id hsig hwork ks
      { st with
        states := updateState st.states file.id
          (fun s0 =>
            { s0 with
              status := FileStatus.running
              message := none
              step := ks.head? }) }
    simp only [runFile, hsig st.clock, Bool.false_eq_true, if_false]
    rw [if_neg (show ¬(ks.isEmpty = true) by simpa using hks), heq]
    refine ⟨_, _, rfl, ?_, ?_⟩
    · simp only
      rw [hmax]
      simpa using hc
    · rw [List.getLast?_concat]
      rfl

theorem runBatch_clean (sig : ℕ → Bool) (work : ℕ → StepOutcome) (tu : ℕ)
    (ks : List ProcessingStep)
    (hsig : ∀ t, sig t = false) (hwork : ∀ t, work t = StepOutcome.ok) :
    ∀ files st, ∃ us st',
      runBatch sig work tu ks files st = (us, st')
        ∧ st'.completed = st.completed + files.length * max ks.length 1
        ∧ (files = [] → us = [])
        ∧ (files ≠ [] → us.getLast?.map (fun u => u.aggregate.percent)
            = some (percentOf tu st'.completed)) := by
  intro files
  induction files with
  | nil =>
    intro st
    exact ⟨[], st, rfl, by simp, fun _ => rfl, fun h => absurd rfl h⟩
  | cons file rest ih =>
    intro st
    obtain ⟨usF, stF, heqF, hcF, hlastF⟩ := runFile_clean sig work tu ks file hsig hwork st
    obtain ⟨usR, stR, heqR, hcR, hnilR, hlastR⟩ := ih stF
    simp only [runBatch]
    rw [heqF, heqR]
    refine ⟨_, _, rfl, ?_, ?_, ?_⟩
    · have hm : (rest.length + 1) * max ks.length 1
          = rest.length * max ks.length 1 + max ks.length 1 := by ring
      simp only [List.length_cons]
      linarith [hcF, hcR, hm]
    · intro h
      exact absurd h (List.cons_ne_nil _ _)
    · intro _
      rcases eq_or_ne rest [] with hrest | hrest
      · subst hrest
        have hpair : (([] : List BatchProgressUpdate), stF) = (usR, stR) := by
          rw [← heqR]
          rfl
        injection hpair with h1 h2
        subst h1
        subst h2
        simpa using hlastF
      · have hsome := hlastR hrest
        rw [List.getLast?_append]
        cases husR : usR.getLast? with
        | none => rw [husR] at hsome; simp at hsome
        | some u =>
          rw [husR] at hsome
          simpa [Option.or] using hsome

theorem percentOf_self (t : ℕ) : percentOf t t = 100 := by
  unfold percentOf
  by_cases h : t = 0
  · rw [if_pos h]
  · rw [if_neg h, div_self (show (t : ℚ) ≠ 0 by exact_mod_cast h)]
    norm_num [jsRound]

/-- **C4.** For every file list of length `n` and every options record with
`k` enabled steps, `totalUnits = n * max(k, 1)`; after a run that is never
cancelled (`sig` constantly false) and in which no step raises (`work`
always `ok`), `completedUnits = totalUnits` and the final emitted aggregate
has `percent = 100`. -/
theorem c4_batch_unit_accounting (sig : ℕ → Bool) (work : ℕ → StepOutcome)
    (files : List AudioFile) (options : ProcessingOptions)
    (hsig : ∀ t, sig t = false) (hwork : ∀ t, work t = StepOutcome.ok) :
    totalUnitsOf files options
        = files.length * max (getEnabledSteps options).length 1
      ∧ (processAudioBatch sig work files options).2.completed
          = totalUnitsOf files options
      ∧ (files ≠ [] →
          ((processAudioBatch sig work files options).1.getLast?).map
              (fun u => u.aggregate.percent) = some 100) := by
  obtain ⟨us, st', heq, hc, hnil, hlast⟩ :=
    runBatch_clean sig work (totalUnitsOf files options) (getEnabledSteps options)
      hsig hwork files { states := initStates files, completed := 0, clock := 0 }
  have hpb : processAudioBatch sig work files options = (us, st') := heq
  have hce : st'.completed = totalUnitsOf files options := by
    simpa [totalUnitsOf] using hc
  refine ⟨rfl, ?_, ?_⟩
  · rw [hpb]
    exact hce
  · intro hne
    rw [hpb]
    have hl := hlast hne
    rw [show (us, st').1 = us from rfl, hl, hce, percentOf_self]

/-- Witness for C4: one file, empty options (zero enabled steps → one unit),
never-aborting signal, always-succeeding work. -/
theorem c4_batch_unit_accounting_witness :
    (∀ t, (fun _ : ℕ => false) t = false)
      ∧ (∀ t, (fun _ : ℕ => StepOutcome.ok) t = StepOutcome.ok)
      ∧ (totalUnitsOf [⟨"a", "a.wav"⟩] {}
            = [(⟨"a", "a.wav"⟩ : AudioFile)].length * max (getEnabledSteps {}).length 1
        ∧ (processAudioBatch (fun _ => false) (fun _ => StepOutcome.ok)
              [⟨"a", "a.wav"⟩] {}).2.completed = totalUnitsOf [⟨"a", "a.wav"⟩] {}
        ∧ (([(⟨"a", "a.wav"⟩ : AudioFile)] : List AudioFile) ≠ [] →
            ((processAudioBatch (fun _ => false) (fun _ => StepOutcome.ok)
                [⟨"a", "a.wav"⟩] {}).1.getLast?).map
                (fun u => u.aggregate.percent) = some 100)) :=
  ⟨fun _ => rfl, fun _ => rfl,
    c4_batch_unit_accounting (fun _ => false) (fun _ => StepOutcome.ok)
      [⟨"a", "a.wav"⟩] {} (fun _ => rfl) (fun _ => rfl)⟩

/-! ## State-map lemmas shared by C5, C6 and C7 -/

theorem updateState_lookup_ne {m : List (String × FileProcessingState)} {k k' : String}
    {f : FileProcessingState → FileProcessingState} (h : k' ≠ k) :
    (updateState m k f).lookup k' = m.lookup k' := by
  induction m with
  | nil => rfl
  | cons p rest ih =>
    by_cases hp : p.1 = k
    · simp only [updateState, List.map_cons, if_pos hp] at ih ⊢
      rw [show ((p.1, f p.2) :: List.map _ rest).lookup k'
          = match k' == p.1 with
            | true => some (f p.2)
            | false => (List.map _ rest).lookup k' from List.lookup_cons]
      rw [show (p :: rest).lookup k'
          = match k' == p.1 with
            | true => some p.2
            | false => rest.lookup k' from List.lookup_cons]
      rw [show (k' == p.1) = false from beq_eq_false_iff_ne.mpr (hp ▸ h)]
      exact ih
    · simp only [updateState, List.map_cons, if_neg hp] at ih ⊢
      rw [show (p :: List.map _ rest).lookup k'
          = match k' == p.1 with
            | true => some p.2
            | false => (List.map _ rest).lookup k' from List.lookup_cons]
      rw [show (p :: rest).lookup k'
          = match k' == p.1 with
            | true => some p.2
            | false => rest.lookup k' from List.lookup_cons]
      cases k' == p.1
      · exact ih
      · rfl

theorem updateState_lookup_eq {m : List (String × FileProcessingState)} {k : String}
    {f : FileProcessingState → FileProcessingState} {v : FileProcessingState}
    (h : m.lookup k = some v) :
    (updateState m k f).lookup k = some (f v) := by
  induction m with
  | nil => simp at h
  | cons p rest ih =>
    obtain ⟨a, w⟩ := p
    rw [List.lookup_cons] at h
    by_cases hak : a = k
    · rw [show (k == a) = true from beq_iff_eq.mpr hak.symm] at h
      simp only at h
      simp only [updateState, List.map_cons, if_pos hak]
      rw [List.lookup_cons, show (k == a) = true from beq_iff_eq.mpr hak.symm]
      rw [show w = v from Option.some.inj h]
    · rw [show (k == a) = false from beq_eq_false_iff_ne.mpr (fun hh => hak hh.symm)] at h
      simp only at h
      simp only [updateState, List.map_cons, if_neg hak]
      rw [List.lookup_cons, show (k == a) = false from beq_eq_false_iff_ne.mpr
        (fun hh => hak hh.symm)]
      exact ih h

theorem keysOK_initStates (files : List AudioFile) : KeysOK (initStates files) := by
  intro p hp
  simp only [initStates, List.mem_map] at hp
  obtain ⟨file, _, rfl⟩ := hp
  rfl

theorem keysOK_updateState {m : List (String × FileProcessingState)} (k : String)
    {f : FileProcessingState → FileProcessingState} (h : KeysOK m)
    (hf : ∀ v, (f v).fileId = v.fileId) : KeysOK (updateState m k f) := by
  intro p hp
  simp only [updateState, List.mem_map] at hp
  obtain ⟨q, hq, hpq⟩ := hp
  by_cases hqk : q.1 = k
  · rw [if_pos hqk] at hpq
    rw [← hpq]
    simpa [hf] using h q hq
  · rw [if_neg hqk] at hpq
    rw [← hpq]
    exact h q hq

theorem lookup_keysOK {m : List (String × FileProcessingState)} {k : String}
    {v : FileProcessingState} (hK : KeysOK m) (hl : m.lookup k = some v) :
    v.fileId = k := by
  induction m with
  | nil => simp at hl
  | cons p rest ih =>
    obtain ⟨a, w⟩ := p
    rw [List.lookup_cons] at hl
    cases hbeq : (k == a) with
    | false =>
      rw [hbeq] at hl
      simp only at hl
      exact ih (fun q hq => hK q (List.mem_cons_of_mem _ hq)) hl
    | true =>
      rw [hbeq] at hl
      simp only at hl
      have hk : k = a := beq_iff_eq.mp (by rw [hbeq])
      have := hK (a, w) (List.mem_cons_self _ _)
      simp only at this
      rw [← Option.some.inj hl, this, hk]

theorem emit_fileId {m : List (String × FileProcessingState)} (tu c : ℕ) {k : String}
    (hK : KeysOK m) : (emit m tu c k).file.fileId = k := by
  unfold emit getRequired
  cases hl : m.lookup k with
  | none => rfl
  | some v => simpa using lookup_keysOK hK hl

theorem runSteps_lookup_ne (sig : ℕ → Bool) (work : ℕ → StepOutcome) (tu : ℕ)
    (fid : String) {k : String} (h : k ≠ fid) :
    ∀ steps st, (runSteps sig work tu fid steps st).2.1.states.lookup k
      = st.states.lookup k := by
  intro steps
  induction steps with
  | nil => intro st; rfl
  | cons step rest ih =>
    intro st
    simp only [runSteps]
    by_cases hs : sig st.clock
    · rw [if_pos hs]
    · rw [if_neg hs]
      cases hwk : work st.clock with
      | abortErr => dsimp only; exact updateState_lookup_ne h
      | err m => dsimp only; exact updateState_lookup_ne h
      | ok =>
        dsimp only
        rw [ih
          { states := updateState st.states fid (fun s0 => { s0 with step := some step })
            completed := st.completed + 1
            clock := st.clock + 1 }]
        dsimp only
        exact updateState_lookup_ne h

theorem runSteps_keysOK (sig : ℕ → Bool) (work : ℕ → StepOutcome) (tu : ℕ)
    (fid : String) :
    ∀ steps st, KeysOK st.states →
      KeysOK (runSteps sig work tu fid steps st).2.1.states := by
  intro steps
  induction steps with
  | nil => intro st h; exact h
  | cons step rest ih =>
    intro st h
    simp only [runSteps]
    by_cases hs : sig st.clock
    · rw [if_pos hs]; exact h
    · rw [if_neg hs]
      have h1 : KeysOK (updateState st.states fid
          (fun s0 => { s0 with step := some step })) :=
        keysOK_updateState fid h (fun v => rfl)
      cases hwk : work st.clock with
      | abortErr => exact h1
      | err m => exact h1
      | ok => exact ih _ h1

theorem runSteps_updates_fileId (sig : ℕ → Bool) (work : ℕ → StepOutcome) (tu : ℕ)
    (fid : String) :
    ∀ steps st, KeysOK st.states →
      ∀ u ∈ (runSteps sig work tu fid steps st).1, u.file.fileId = fid := by
  intro steps
  induction steps with
  | nil => intro st _ u hu; simp [runSteps] at hu
  | cons step rest ih =>
    intro st h u hu
    simp only [runSteps] at hu
    by_cases hs : sig st.clock
    · rw [if_pos hs] at hu; simp at hu
    · rw [if_neg hs] at hu
      have h1 : KeysOK (updateState st.states fid
          (fun s0 => { s0 with step := some step })) :=
        keysOK_updateState fid h (fun v => rfl)
      cases hwk : work st.clock with
      | abortErr =>
        rw [hwk] at hu
        simp only [List.mem_singleton] at hu
        rw [hu]
        exact emit_fileId tu st.completed h1
      | err m =>
        rw [hwk] at hu
        simp only [List.mem_singleton] at hu
        rw [hu]
        exact emit_fileId tu st.completed h1
      | ok =>
        rw [hwk] at hu
        simp only [List.mem_cons] at hu
        rcases hu with hu | hu | hu
        · rw [hu]; exact emit_fileId tu st.completed h1
        · rw [hu]; exact emit_fileId tu (st.completed + 1) h1
        · exact ih _ h1 u hu

theorem runSteps_error_classify (sig : ℕ → Bool) (work : ℕ → StepOutcome) (tu : ℕ)
    (fid : String) :
    ∀ steps st e, (runSteps sig work tu fid steps st).2.2 = Except.error e →
      e = BatchErr.abortError ∨ ∃ m t, e = BatchErr.failure m ∧ work t = StepOutcome.err m := by
  intro steps
  induction steps with
  | nil => intro st e he; simp [runSteps] at he
  | cons step rest ih =>
    intro st e he
    simp only [runSteps] at he
    by_cases hs : sig st.clock
    · rw [if_pos hs] at he
      simp only at he
      exact Or.inl (Except.error.inj he).symm
    · rw [if_neg hs] at he
      cases hwk : work st.clock with
      | abortErr =>
        rw [hwk] at he
        simp only at he
        exact Or.inl (Except.error.inj he).symm
      | err m =>
        rw [hwk] at he
        simp only at he
        exact Or.inr ⟨m, st.clock, (Except.error.inj he).symm, hwk⟩
      | ok =>
        rw [hwk] at he
        simp only at he
        exact ih _ e he

theorem runSteps_preserves_entry (sig : ℕ → Bool) (work : ℕ → StepOutcome) (tu : ℕ)
    (fid : String) :
    ∀ steps st v, st.states.lookup fid = some v →
      ∃ v', (runSteps sig work tu fid steps st).2.1.states.lookup fid = some v'
        ∧ v'.status = v.status ∧ v'.message = v.message := by
  intro steps
  induction steps with
  | nil => intro st v hv; exact ⟨v, hv, rfl, rfl⟩
  | cons step rest ih =>
    intro st v hv
    simp only [runSteps]
    by_cases hs : sig st.clock
    · rw [if_pos hs]; exact ⟨v, hv, rfl, rfl⟩
    · rw [if_neg hs]
      have h1 := updateState_lookup_eq (f := fun s0 => { s0 with step := some step }) hv
      cases hwk : work st.clock with
      | abortErr => exact ⟨_, h1, rfl, rfl⟩
      | err m => exact ⟨_, h1, rfl, rfl⟩
      | ok =>
        simp only
        obtain ⟨v', hl, hs', hm'⟩ := ih
          { states := updateState st.states fid (fun s0 => { s0 with step := some step })
            completed := st.completed + 1
            clock := st.clock + 1 } _ h1
        exact ⟨v', hl, hs', hm'⟩

theorem runFile_lookup_ne (sig : ℕ → Bool) (work : ℕ → StepOutcome) (tu : ℕ)
    (ks : List ProcessingStep) (file : AudioFile) {k : String} (h : k ≠ file.id) :
    ∀ st, (runFile sig work tu ks file st).2.1.states.lookup k
      = st.states.lookup k := by
  intro st
  simp only [runFile]
  by_cases hs : sig st.clock
  · rw [if_pos hs]
  · rw [if_neg hs]
    by_cases hks : ks.isEmpty
    · rw [if_pos hks]
      try dsimp only
      rw [updateState_lookup_ne h, updateState_lookup_ne h]
    · rw [if_neg hks]
      try dsimp only
      cases hE : (runSteps sig work tu file.id ks
          { st with
            states := updateState st.states file.id
              (fun s0 =>
                { s0 with
                  status := FileStatus.running
                  message := none
                  step := ks.head? }) }).2.2 with
      | ok u =>
        try dsimp only
        rw [updateState_lookup_ne h,
          runSteps_lookup_ne sig work tu file.id h ks _]
        try dsimp only
        exact updateState_lookup_ne h
      | error e =>
        try dsimp only
        rw [runSteps_lookup_ne sig work tu file.id h ks _]
        try dsimp only
        exact updateState_lookup_ne h

theorem runFile_keysOK (sig : ℕ → Bool) (work : ℕ → StepOutcome) (tu : ℕ)
    (ks : List ProcessingStep) (file : AudioFile) :
    ∀ st, KeysOK st.states → KeysOK (runFile sig work tu ks file st).2.1.states := by
  intro st h
  simp only [runFile]
  by_cases hs : sig st.clock
  · rw [if_pos hs]; exact h
  · rw [if_neg hs]
    have h1 : KeysOK (updateState st.states file.id
        (fun s0 =>
          { s0 with
            status := FileStatus.running
            message := none
            step := ks.head? })) :=
      keysOK_updateState _ h (fun v => rfl)
    by_cases hks : ks.isEmpty
    · rw [if_pos hks]
      try dsimp only
      exact keysOK_updateState _ h1 (fun v => rfl)
    · rw [if_neg hks]
      try dsimp only
      have h2 := runSteps_keysOK sig work tu file.id ks
        { st with
          states := updateState st.states file.id
            (fun s0 =>
              { s0 with
                status := FileStatus.running
                message := none
                step := ks.head? }) } h1
      cases hE : (runSteps sig work tu file.id ks
          { st with
            states := updateState st.states file.id
              (fun s0 =>
                { s0 with
                  status := FileStatus.running
                  message := none
                  step := ks.head? }) }).2.2 with
      | ok u =>
        try dsimp only
        exact keysOK_updateState _ h2 (fun v => rfl)
      | error e =>
        try dsimp only
        exact h2

theorem runFile_updates_fileId (sig : ℕ → Bool) (work : ℕ → StepOutcome) (tu : ℕ)
    (ks : List ProcessingStep) (file : AudioFile) :
    ∀ st, KeysOK st.states →
      ∀ u ∈ (runFile sig work tu ks file st).1, u.file.fileId = file.id := by
  intro st h u hu
  simp only [runFile] at hu
  by_cases hs : sig st.clock
  · rw [if_pos hs] at hu; simp at hu
  · rw [if_neg hs] at hu
    have h1 : KeysOK (updateState st.states file.id
        (fun s0 =>
          { s0 with
            status := FileStatus.running
            message := none
            step := ks.head? })) :=
      keysOK_updateState _ h (fun v => rfl)
    by_cases hks : ks.isEmpty
    · rw [if_pos hks] at hu
      try dsimp only at hu
      rw [List.mem_cons, List.mem_singleton] at hu
      rcases hu with hu | hu
      · rw [hu]; exact emit_fileId _ _ h1
      · rw [hu]; exact emit_fileId _ _ (keysOK_updateState _ h1 (fun v => rfl))
    · rw [if_neg hks] at hu
      try dsimp only at hu
      have h2 := runSteps_keysOK sig work tu file.id ks
        { st with
          states := updateState st.states file.id
            (fun s0 =>
              { s0 with
                status := FileStatus.running
                message := none
                step := ks.head? }) } h1
      cases hE : (runSteps sig work tu file.id ks
          { st with
            states := updateState st.states file.id
              (fun s0 =>
                { s0 with
                  status := FileStatus.running
                  message := none
                  step := ks.head? }) }).2.2 with
      | ok v =>
        rw [hE] at hu
        try dsimp only at hu
        rw [List.cons_append, List.mem_cons, List.mem_append, List.mem_singleton] at hu
        rcases hu with hu | hu | hu
        · rw [hu]; exact emit_fileId _ _ h1
        · exact runSteps_updates_fileId sig work tu file.id ks _ h1 u hu
        · rw [hu]
          exact emit_fileId _ _ (keysOK_updateState _ h2 (fun v => rfl))
      | error e =>
        rw [hE] at hu
        try dsimp only at hu
        rw [List.mem_cons] at hu
        rcases hu with hu | hu
        · rw [hu]; exact emit_fileId _ _ h1
        · exact runSteps_updates_fileId sig work tu file.id ks _ h1 u hu

theorem runFile_error_classify (sig : ℕ → Bool) (work : ℕ → StepOutcome) (tu : ℕ)
    (ks : List ProcessingStep) (file : AudioFile) :
    ∀ st e, (runFile sig work tu ks file st).2.2 = Except.error e →
      e = BatchErr.abortError
        ∨ ∃ m t, e = BatchErr.failure m ∧ work t = StepOutcome.err m := by
  intro st e he
  simp only [runFile] at he
  by_cases hs : sig st.clock
  · rw [if_pos hs] at he
    try dsimp only at he
    exact Or.inl (Except.error.inj he).symm
  · rw [if_neg hs] at he
    by_cases hks : ks.isEmpty
    · rw [if_pos hks] at he
      try dsimp only at he
      simp at he
    · rw [if_neg hks] at he
      try dsimp only at he
      cases hE : (runSteps sig work tu file.id ks
          { st with
            states := updateState st.states file.id
              (fun s0 =>
                { s0 with
                  status := FileStatus.running
                  message := none
                  step := ks.head? }) }).2.2 with
      | ok u =>
        rw [hE] at he
        try dsimp only at he
        simp at he
      | error e' =>
        rw [hE] at he
        try dsimp only at he
        have hee : e' = e := Except.error.inj he
        subst hee
        exact runSteps_error_classify sig work tu file.id ks _ e' hE

theorem runFile_ok_final (sig : ℕ → Bool) (work : ℕ → StepOutcome) (tu : ℕ)
    (ks : List ProcessingStep) (file : AudioFile) :
    ∀ st v, st.states.lookup file.id = some v →
      (runFile sig work tu ks file st).2.2 = Except.ok () →
      ∃ v', (runFile sig work tu ks file st).2.1.states.lookup file.id = some v'
        ∧ v'.status = FileStatus.success ∧ v'.message = none := by
  intro st v hv hok
  simp only [runFile] at hok ⊢
  by_cases hs : sig st.clock
  · rw [if_pos hs] at hok
    try dsimp only at hok
    simp at hok
  · rw [if_neg hs] at hok ⊢
    have h1 : (updateState st.states file.id
        (fun s0 =>
          { s0 with
            status := FileStatus.running
            message := none
            step := ks.head? })).lookup file.id
        = some { v with
            status := FileStatus.running
            message := none
            step := ks.head? } :=
      updateState_lookup_eq hv
    by_cases hks : ks.isEmpty
    · rw [if_pos hks] at hok ⊢
      try dsimp only
      exact ⟨_, updateState_lookup_eq h1, rfl, rfl⟩
    · rw [if_neg hks] at hok ⊢
      try dsimp only at hok ⊢
      cases hE : (runSteps sig work tu file.id ks
          { st with
            states := updateState st.states file.id
              (fun s0 =>
                { s0 with
                  status := FileStatus.running
                  message := none
                  step := ks.head? }) }).2.2 with
      | error e =>
        rw [hE] at hok
        try dsimp only at hok
        simp at hok
      | ok u =>
        try dsimp only
        obtain ⟨v', hl', hs', hm'⟩ := runSteps_preserves_entry sig work tu file.id ks
          { st with
            states := updateState st.states file.id
              (fun s0 =>
                { s0 with
                  status := FileStatus.running
                  message := none
                  step := ks.head? }) }
          { v with
            status := FileStatus.running
            message := none
            step := ks.head? } h1
        refine ⟨_, updateState_lookup_eq hl', rfl, ?_⟩
        simpa using hm'

theorem runFile_ok_last (sig : ℕ → Bool) (work : ℕ → StepOutcome) (tu : ℕ)
    (ks : List ProcessingStep) (file : AudioFile) :
    ∀ st, (runFile sig work tu ks file st).2.2 = Except.ok () →
      (runFile sig work tu ks file st).1.getLast?.map (fun u => u.aggregate.percent)
        = some (percentOf tu (runFile sig work tu ks file st).2.1.completed) := by
  intro st hok
  simp only [runFile] at hok ⊢
  by_cases hs : sig st.clock
  · rw [if_pos hs] at hok
    try dsimp only at hok
    simp at hok
  · rw [if_neg hs] at hok ⊢
    by_cases hks : ks.isEmpty
    · rw [if_pos hks]
      rfl
    · rw [if_neg hks] at hok ⊢
      try dsimp only at hok ⊢
      cases hE : (runSteps sig work tu file.id ks
          { st with
            states := updateState st.states file.id
              (fun s0 =>
                { s0 with
                  status := FileStatus.running
                  message := none
                  step := ks.head? }) }).2.2 with
      | error e =>
        rw [hE] at hok
        try dsimp only at hok
        simp at hok
      | ok u =>
        try dsimp only
        rw [List.getLast?_concat]
        rfl

theorem runBatch_lookup_ne (sig : ℕ → Bool) (work : ℕ → StepOutcome) (tu : ℕ)
    (ks : List ProcessingStep) {k : String} :
    ∀ files st, (∀ f ∈ files, k ≠ f.id) →
      (runBatch sig work tu ks files st).2.states.lookup k
        = st.states.lookup k := by
  intro files
  induction files with
  | nil => intro st _; rfl
  | cons file rest ih =>
    intro st hne
    have hxf : k ≠ file.id := hne file (List.mem_cons_self _ _)
    simp only [runBatch]
    cases hE : (runFile sig work tu ks file st).2.2 with
    | ok u =>
      try dsimp only
      rw [ih _ (fun f hf => hne f (List.mem_cons_of_mem _ hf))]
      exact runFile_lookup_ne sig work tu ks file hxf st
    | error e =>
      try dsimp only
      split
      · try dsimp only
        rw [updateState_lookup_ne hxf]
        exact runFile_lookup_ne sig work tu ks file hxf st
      · try dsimp only
        rw [ih _ (fun f hf => hne f (List.mem_cons_of_mem _ hf))]
        try dsimp only
        rw [updateState_lookup_ne hxf]
        exact runFile_lookup_ne sig work tu ks file hxf st

theorem runBatch_keysOK (sig : ℕ → Bool) (work : ℕ → StepOutcome) (tu : ℕ)
    (ks : List ProcessingStep) :
    ∀ files st, KeysOK st.states → KeysOK (runBatch sig work tu ks files st).2.states := by
  intro files
  induction files with
  | nil => intro st h; exact h
  | cons file rest ih =>
    intro st h
    have hF := runFile_keysOK sig work tu ks file st h
    simp only [runBatch]
    cases hE : (runFile sig work tu ks file st).2.2 with
    | ok u =>
      try dsimp only
      exact ih _ hF
    | error e =>
      try dsimp only
      split
      · try dsimp only
        exact keysOK_updateState _ hF (fun v => rfl)
      · try dsimp only
        apply ih
        try dsimp only
        exact keysOK_updateState _ hF (fun v => rfl)

/-! ## C6: failure isolation (no cancellation in play) -/

theorem runSteps_no_abort (sig : ℕ → Bool) (work : ℕ → StepOutcome) (tu : ℕ)
    (fid : String) (hsig : ∀ t, sig t = false)
    (hnoabort : ∀ t, work t ≠ StepOutcome.abortErr) :
    ∀ steps st, (runSteps sig work tu fid steps st).2.2
      ≠ Except.error BatchErr.abortError := by
  intro steps
  induction steps with
  | nil => intro st h; simp [runSteps] at h
  | cons step rest ih =>
    intro st h
    simp only [runSteps, hsig st.clock, Bool.false_eq_true, if_false] at h
    cases hwk : work st.clock with
    | abortErr => exact hnoabort st.clock hwk
    | err m =>
      rw [hwk] at h
      try dsimp only at h
      simp at h
    | ok =>
      rw [hwk] at h
      try dsimp only at h
      exact ih _ h

theorem runFile_no_abort (sig : ℕ → Bool) (work : ℕ → StepOutcome) (tu : ℕ)
    (ks : List ProcessingStep) (file : AudioFile) (hsig : ∀ t, sig t = false)
    (hnoabort : ∀ t, work t ≠ StepOutcome.abortErr) :
    ∀ st, (runFile sig work tu ks file st).2.2 ≠ Except.error BatchErr.abortError := by
  intro st h
  simp only [runFile, hsig st.clock, Bool.false_eq_true, if_false] at h
  by_cases hks : ks.isEmpty
  · rw [if_pos hks] at h
    try dsimp only at h
    simp at h
  · rw [if_neg hks] at h
    try dsimp only at h
    cases hE : (runSteps sig work tu file.id ks
        { st with
          states := updateState st.states file.id
            (fun s0 =>
              { s0 with
                status := FileStatus.running
                message := none
                step := ks.head? }) }).2.2 with
    | ok u =>
      rw [hE] at h
      try dsimp only at h
      simp at h
    | error e =>
      rw [hE] at h
      try dsimp only at h
      have : e = BatchErr.abortError := Except.error.inj h
      subst this
      exact runSteps_no_abort sig work tu file.id hsig hnoabort ks _ hE

theorem runFile_presence (sig : ℕ → Bool) (work : ℕ → StepOutcome) (tu : ℕ)
    (ks : List ProcessingStep) (file : AudioFile) :
    ∀ st v, st.states.lookup file.id = some v →
      ∃ v', (runFile sig work tu ks file st).2.1.states.lookup file.id = some v' := by
  intro st v hv
  simp only [runFile]
  by_cases hs : sig st.clock
  · rw [if_pos hs]; exact ⟨v, hv⟩
  · rw [if_neg hs]
    have h1 : (updateState st.states file.id
        (fun s0 =>
          { s0 with
            status := FileStatus.running
            message := none
            step := ks.head? })).lookup file.id
        = some { v with
            status := FileStatus.running
            message := none
            step := ks.head? } :=
      updateState_lookup_eq hv
    by_cases hks : ks.isEmpty
    · rw [if_pos hks]
      try dsimp only
      exact ⟨_, updateState_lookup_eq h1⟩
    · rw [if_neg hks]
      try dsimp only
      obtain ⟨v', hl', _, _⟩ := runSteps_preserves_entry sig work tu file.id ks
        { st with
          states := updateState st.states file.id
            (fun s0 =>
              { s0 with
                status := FileStatus.running
                message := none
                step := ks.head? }) }
        { v with
          status := FileStatus.running
          message := none
          step := ks.head? } h1
      cases hE : (runSteps sig work tu file.id ks
          { st with
            states := updateState st.states file.id
              (fun s0 =>
                { s0 with
                  status := FileStatus.running
                  message := none
                  step := ks.head? }) }).2.2 with
      | ok u =>
        try dsimp only
        exact ⟨_, updateState_lookup_eq hl'⟩
      | error e =>
        try dsimp only
        exact ⟨v', hl'⟩

theorem getLast?_cons_of_getLast? {α : Type} {l : List α} {a u : α}
    (h : l.getLast? = some u) : (a :: l).getLast? = some u := by
  obtain ⟨ys, rfl⟩ := List.getLast?_eq_some_iff.mp h
  exact List.getLast?_concat (a :: ys)

theorem runBatch_no_cancel (sig : ℕ → Bool) (work : ℕ → StepOutcome) (tu : ℕ)
    (ks : List ProcessingStep)
    (hsig : ∀ t, sig t = false) (hnoabort : ∀ t, work t ≠ StepOutcome.abortErr) :
    ∀ files st,
      (files.map AudioFile.id).Nodup →
      (∀ f ∈ files, ∃ v0, st.states.lookup f.id = some v0) →
      KeysOK st.states →
      (∀ file ∈ files, ∃ v,
          (runBatch sig work tu ks files st).2.states.lookup file.id = some v
            ∧ (v.status = FileStatus.success
               ∨ (v.status = FileStatus.failed
                  ∧ ∃ t m, work t = StepOutcome.err m
                      ∧ v.message = some (m.getD "Processing failed"))))
        ∧ (files ≠ [] →
            ((runBatch sig work tu ks files st).1.getLast?).map
                (fun u => u.aggregate.percent)
              = some (percentOf tu (runBatch sig work tu ks files st).2.completed)) := by
  intro files
  induction files with
  | nil =>
    intro st _ _ _
    exact ⟨fun f hf => absurd hf (List.not_mem_nil f), fun h => absurd rfl h⟩
  | cons file rest ih =>
    intro st hnodup hpresent hK
    obtain ⟨hnotin, htail⟩ : file.id ∉ rest.map AudioFile.id
        ∧ (rest.map AudioFile.id).Nodup := by
      simpa using hnodup
    have hner : ∀ f ∈ rest, f.id ≠ file.id := by
      intro f hf heq
      exact hnotin (heq ▸ List.mem_map_of_mem AudioFile.id hf)
    have hnef : ∀ f ∈ rest, file.id ≠ f.id := fun f hf => (hner f hf).symm
    obtain ⟨v0, hv0⟩ := hpresent file (List.mem_cons_self _ _)
    have hKF := runFile_keysOK sig work tu ks file st hK
    have hrest_pres : ∀ f ∈ rest, ∃ w, (runFile sig work tu ks file st).2.1.states.lookup f.id
        = some w := by
      intro f hf
      obtain ⟨w, hw⟩ := hpresent f (List.mem_cons_of_mem _ hf)
      exact ⟨w, by rw [runFile_lookup_ne sig work tu ks file (hner f hf) st]; exact hw⟩
    simp only [runBatch]
    cases hE : (runFile sig work tu ks file st).2.2 with
    | ok u =>
      cases u
      try dsimp only
      obtain ⟨vS, hlS, hsS, _⟩ := runFile_ok_final sig work tu ks file st v0 hv0 hE
      obtain ⟨ihA, ihB⟩ := ih (runFile sig work tu ks file st).2.1 htail hrest_pres hKF
      constructor
      · intro g hg
        rcases List.mem_cons.mp hg with rfl | hg'
        · refine ⟨vS, ?_, Or.inl hsS⟩
          rw [runBatch_lookup_ne sig work tu ks rest _ hnef]
          exact hlS
        · exact ihA g hg'
      · intro _
        rcases eq_or_ne rest [] with rfl | hrest
        · simp only [runBatch]
          try dsimp only
          simpa using runFile_ok_last sig work tu ks file st hE
        · have hlast := ihB hrest
          rw [List.getLast?_append]
          cases husR : (runBatch sig work tu ks rest
              (runFile sig work tu ks file st).2.1).1.getLast? with
          | none => rw [husR] at hlast; simp at hlast
          | some u' =>
            rw [husR] at hlast
            simpa [Option.or] using hlast
    | error e =>
      have hcls := runFile_error_classify sig work tu ks file st e hE
      have hnab : e ≠ BatchErr.abortError := by
        intro hcon
        exact runFile_no_abort sig work tu ks file hsig hnoabort st (hcon ▸ hE)
      obtain ⟨m, t, rfl, hwt⟩ : ∃ m t, e = BatchErr.failure m ∧ work t = StepOutcome.err m := by
        rcases hcls with hc | hc
        · exact absurd hc hnab
        · exact hc
      obtain ⟨v1, hv1⟩ := runFile_presence sig work tu ks file st v0 hv0
      have hfail : (updateState (runFile sig work tu ks file st).2.1.states file.id
          (fun s0 =>
            { s0 with
              status := FileStatus.failed
              step := none
              message := some (errMessage (BatchErr.failure m)) })).lookup file.id
          = some { v1 with
              status := FileStatus.failed
              step := none
              message := some (errMessage (BatchErr.failure m)) } :=
        updateState_lookup_eq hv1
      try dsimp only
      rw [if_neg (by simp [isAbortError, hsig])]
      have hrest_pres2 : ∀ f ∈ rest,
          ∃ w, (updateState (runFile sig work tu ks file st).2.1.states file.id
              (fun s0 =>
                { s0 with
                  status := FileStatus.failed
                  step := none
                  message := some (errMessage (BatchErr.failure m)) })).lookup f.id
            = some w := by
        intro f hf
        obtain ⟨w, hw⟩ := hrest_pres f hf
        exact ⟨w, by rw [updateState_lookup_ne (hner f hf)]; exact hw⟩
      have hK2 : KeysOK (updateState (runFile sig work tu ks file st).2.1.states file.id
          (fun s0 =>
            { s0 with
              status := FileStatus.failed
              step := none
              message := some (errMessage (BatchErr.failure m)) })) :=
        keysOK_updateState _ hKF (fun v => rfl)
      obtain ⟨ihA, ihB⟩ := ih
        { (runFile sig work tu ks file st).2.1 with
          states := updateState (runFile sig work tu ks file st).2.1.states file.id
            (fun s0 =>
              { s0 with
                status := FileStatus.failed
                step := none
                message := some (errMessage (BatchErr.failure m)) }) }
        htail hrest_pres2 hK2
      have hlook : (runBatch sig work tu ks rest
          { (runFile sig work tu ks file st).2.1 with
            states := updateState (runFile sig work tu ks file st).2.1.states file.id
              (fun s0 =>
                { s0 with
                  status := FileStatus.failed
                  step := none
                  message := some (errMessage (BatchErr.failure m)) }) }).2.states.lookup
            file.id
          = some { v1 with
              status := FileStatus.failed
              step := none
              message := some (errMessage (BatchErr.failure m)) } := by
        rw [runBatch_lookup_ne sig work tu ks rest _ hnef]
        try dsimp only
        exact hfail
      constructor
      · intro g hg
        rcases List.mem_cons.mp hg with rfl | hg'
        · refine ⟨_, hlook, ?_⟩
          exact Or.inr ⟨rfl, t, m, hwt, rfl⟩
        · exact ihA g hg'
      · intro _
        rcases eq_or_ne rest [] with rfl | hrest
        · simp only [runBatch]
          try dsimp only
          rw [List.getLast?_concat]
          rfl
        · have hlast := ihB hrest
          rw [List.getLast?_append]
          cases husR : (runBatch sig work tu ks rest _).1.getLast? with
          | none =>
            rw [husR] at hlast
            simp at hlast
          | some u' =>
            rw [husR] at hlast
            rw [getLast?_cons_of_getLast? husR]
            simpa [Option.or] using hlast

theorem initStates_lookup_mem (files : List AudioFile) :
    ∀ f ∈ files, ∃ v, (initStates files).lookup f.id = some v := by
  induction files with
  | nil => intro f hf; cases hf
  | cons g rest ih =>
    intro f hf
    rcases List.mem_cons.mp hf with rfl | hf'
    · exact ⟨initFileState f, by simp [initStates, List.lookup]⟩
    · by_cases h : f.id = g.id
      · exact ⟨initFileState g, by simp [initStates, List.lookup, h]⟩
      · obtain ⟨v, hv⟩ := ih f hf'
        have hb : (f.id == g.id) = false := beq_eq_false_iff_ne.mpr h
        exact ⟨v, by simp only [initStates, List.map_cons, List.lookup, hb]; exact hv⟩

/-- **C6 (amended).** Failure isolation holds, but the percentage claim does
not: when no cancellation occurs (`sig` constantly false, no step outcome is
the abort error), every file of the batch ends in a terminal status — either
`success`, or `failed` carrying the raised error's message (defaulting to
"Processing failed" when the exception has none) — the run visits all files,
and the final emitted aggregate's percent equals
`round(100 * completedUnits / totalUnits)`.  `completedUnits` counts only the
step units that finished before each failure (the `catch` block does not
credit the failed file's remaining units), so the final percent stays below
100 whenever a file fails mid-step: the spec's "percent eventually 100" does
not hold. -/
theorem c6_amended_failure_isolation (sig : ℕ → Bool) (work : ℕ → StepOutcome)
    (files : List AudioFile) (options : ProcessingOptions)
    (hnodup : (files.map AudioFile.id).Nodup)
    (hsig : ∀ t, sig t = false) (hnoabort : ∀ t, work t ≠ StepOutcome.abortErr) :
    (∀ file ∈ files, ∃ v,
        (processAudioBatch sig work files options).2.states.lookup file.id = some v
          ∧ (v.status = FileStatus.success
             ∨ (v.status = FileStatus.failed
                ∧ ∃ t m, work t = StepOutcome.err m
                    ∧ v.message = some (m.getD "Processing failed"))))
      ∧ (files ≠ [] →
          ((processAudioBatch sig work files options).1.getLast?).map
              (fun u => u.aggregate.percent)
            = some (percentOf (totalUnitsOf files options)
                (processAudioBatch sig work files options).2.completed)) :=
  runBatch_no_cancel sig work (totalUnitsOf files options) (getEnabledSteps options)
    hsig hnoabort files
    { states := initStates files, completed := 0, clock := 0 }
    hnodup (initStates_lookup_mem files) (keysOK_initStates files)

/-- **C6 (counterexample).** Two files, one enabled step each
(`totalUnits = 2`), no cancellation, file 1's step raises `Error("boom")`:
file 1 ends `failed` with message "boom", file 2 is still processed to
`success` (isolation holds), but the final emitted aggregate has
`percent = 50`, not 100 — the `catch` block never increments
`completedUnits`, so the failed unit is never accounted for. -/
theorem c6_counterexample_failed_unit_percent_below_100 :
    (((processAudioBatch (fun _ => false) c6Work c6Files c6Opts).1.getLast?).map
        (fun u => u.aggregate.percent) = some 50)
    ∧ (((processAudioBatch (fun _ => false) c6Work c6Files c6Opts).2.states.lookup
          "f1").map FileProcessingState.status = some FileStatus.failed)
    ∧ (((processAudioBatch (fun _ => false) c6Work c6Files c6Opts).2.states.lookup
          "f1").bind FileProcessingState.message = some "boom")
    ∧ (((processAudioBatch (fun _ => false) c6Work c6Files c6Opts).2.states.lookup
          "f2").map FileProcessingState.status = some FileStatus.success) := by
  refine ⟨?_, ?_, ?_, ?_⟩ <;>
  · simp only [c6Files, c6Work, c6Opts, processAudioBatch, runBatch, runFile,
      runSteps, totalUnitsOf, getEnabledSteps, stepEnabled, PROCESSING_STEPS,
      initStates, initFileState, updateState, emit, getRequired, buildAggregate,
      percentOf, jsRound, errMessage, isAbortError, List.lookup, List.filter,
      List.map, List.length]
    simp
    try norm_num [jsRound]

/-- Witness for the amended C6 theorem at the counterexample's batch: the
hypotheses hold (distinct ids, never-aborting signal, no abort outcome) and
the conclusion applies. -/
theorem c6_amended_failure_isolation_witness :
    ((c6Files.map AudioFile.id).Nodup)
    ∧ ((∀ file ∈ c6Files, ∃ v,
          (processAudioBatch (fun _ => false) c6Work c6Files c6Opts).2.states.lookup
              file.id = some v
            ∧ (v.status = FileStatus.success
               ∨ (v.status = FileStatus.failed
                  ∧ ∃ t m, c6Work t = StepOutcome.err m
                      ∧ v.message = some (m.getD "Processing failed"))))
        ∧ (c6Files ≠ [] →
            ((processAudioBatch (fun _ => false) c6Work c6Files c6Opts).1.getLast?).map
                (fun u => u.aggregate.percent)
              = some (percentOf (totalUnitsOf c6Files c6Opts)
                  (processAudioBatch (fun _ => false) c6Work c6Files c6Opts).2.completed))) :=
  ⟨by decide,
   c6_amended_failure_isolation (fun _ => false) c6Work c6Files c6Opts
     (by decide) (fun t => rfl)
     (fun t => by simp only [c6Work]; split <;> simp)⟩

theorem initStates_lookup_of_nodup :
    ∀ files : List AudioFile, (files.map AudioFile.id).Nodup →
      ∀ g ∈ files, (initStates files).lookup g.id = some (initFileState g) := by
  intro files
  induction files with
  | nil => intro _ g hg; cases hg
  | cons f rest ih =>
    intro hnodup g hg
    obtain ⟨hnotin, htail⟩ : f.id ∉ rest.map AudioFile.id
        ∧ (rest.map AudioFile.id).Nodup := by
      simpa using hnodup
    rcases List.mem_cons.mp hg with rfl | hg'
    · simp [initStates, List.lookup]
    · have hne : g.id ≠ f.id := by
        intro heq
        exact hnotin (heq ▸ List.mem_map_of_mem AudioFile.id hg')
    
      have hb : (g.id == f.id) = false := beq_eq_false_iff_ne.mpr hne
      simp only [initStates, List.map_cons, List.lookup, hb]
      exact ih htail g hg'

theorem runBatch_abort_at (sig : ℕ → Bool) (work : ℕ → StepOutcome) (tu : ℕ)
    (ks : List ProcessingStep) (fi : AudioFile) (post : List AudioFile) :
    ∀ pre st,
      ((pre ++ fi :: post).map AudioFile.id).Nodup →
      (∃ v0, st.states.lookup fi.id = some v0) →
      KeysOK st.states →
      CleanPrefix sig work tu ks pre st →
      (runFile sig work tu ks fi (stAfter sig work tu ks pre st)).2.2
        = Except.error BatchErr.abortError →
      (∃ v, (runBatch sig work tu ks (pre ++ fi :: post) st).2.states.lookup fi.id
          = some v ∧ v.status = FileStatus.failed
          ∧ v.message = some "Processing aborted")
        ∧ (∀ g ∈ post,
            (runBatch sig work tu ks (pre ++ fi :: post) st).2.states.lookup g.id
              = st.states.lookup g.id)
        ∧ (∀ u ∈ (runBatch sig work tu ks (pre ++ fi :: post) st).1, ∀ g ∈ post,
            u.file.fileId ≠ g.id) := by
  intro pre
  induction pre with
  | nil =>
    intro st hnodup hpres hK _ habort
    simp only [stAfter] at habort
    obtain ⟨hnotin, _⟩ : fi.id ∉ post.map AudioFile.id
        ∧ (post.map AudioFile.id).Nodup := by
      simpa using hnodup
    have hgne : ∀ g ∈ post, g.id ≠ fi.id := by
      intro g hg heq
      exact hnotin (heq ▸ List.mem_map_of_mem AudioFile.id hg)
    obtain ⟨v0, hv0⟩ := hpres
    obtain ⟨v1, hv1⟩ := runFile_presence sig work tu ks fi st v0 hv0
    have hKF := runFile_keysOK sig work tu ks fi st hK
    simp only [List.nil_append, runBatch]
    rw [habort]
    try dsimp only
    rw [if_pos (by simp [isAbortError])]
    have hlook : (updateState (runFile sig work tu ks fi st).2.1.states fi.id
        (fun s0 =>
          { s0 with
            status := FileStatus.failed
            step := none
            message := some (errMessage BatchErr.abortError) })).lookup fi.id
        = some { v1 with
            status := FileStatus.failed
            step := none
            message := some (errMessage BatchErr.abortError) } :=
      updateState_lookup_eq hv1
    refine ⟨⟨_, hlook, rfl, rfl⟩, ?_, ?_⟩
    · intro g hg
      try dsimp only
      rw [updateState_lookup_ne (hgne g hg)]
      exact runFile_lookup_ne sig work tu ks fi (hgne g hg) st
    · intro u hu g hg
      try dsimp only at hu
      rcases List.mem_append.mp hu with hu' | hu'
      · rw [runFile_updates_fileId sig work tu ks fi st hK u hu']
        exact Ne.symm (hgne g hg)
      · rw [List.mem_singleton.mp hu']
        have hKu : KeysOK (updateState (runFile sig work tu ks fi st).2.1.states fi.id
            (fun s0 =>
              { s0 with
                status := FileStatus.failed
                step := none
                message := some (errMessage BatchErr.abortError) })) :=
          keysOK_updateState _ hKF (fun v => rfl)
        rw [emit_fileId _ _ hKu]
        exact Ne.symm (hgne g hg)
  | cons p pre' ih =>
    intro st hnodup hpres hK hpre habort
    obtain ⟨hokp, hpre'⟩ := hpre
    simp only [stAfter] at habort
    obtain ⟨hnotin, htail⟩ : p.id ∉ (pre' ++ fi :: post).map AudioFile.id
        ∧ ((pre' ++ fi :: post).map AudioFile.id).Nodup := by
      simpa [List.cons_append] using hnodup
    have hfip : fi.id ≠ p.id := by
      intro heq
      exact hnotin (heq ▸ List.mem_map_of_mem AudioFile.id
        (List.mem_append_right pre' (List.mem_cons_self fi post)))
    have hgp : ∀ g ∈ post, g.id ≠ p.id := by
      intro g hg heq
      exact hnotin (heq ▸ List.mem_map_of_mem AudioFile.id
        (List.mem_append_right pre' (List.mem_cons_of_mem fi hg)))
    obtain ⟨v0, hv0⟩ := hpres
    have hpres' : ∃ v0, (runFile sig work tu ks p st).2.1.states.lookup fi.id
        = some v0 :=
      ⟨v0, by rw [runFile_lookup_ne sig work tu ks p hfip st]; exact hv0⟩
    have hKF := runFile_keysOK sig work tu ks p st hK
    obtain ⟨ih1, ih2, ih3⟩ := ih (runFile sig work tu ks p st).2.1 htail hpres' hKF
      hpre' habort
    simp only [List.cons_append, runBatch]
    rw [hokp]
    try dsimp only
    simp only [List.append_eq]
    refine ⟨ih1, ?_, ?_⟩
    · intro g hg
      rw [ih2 g hg]
      exact runFile_lookup_ne sig work tu ks p (hgp g hg) st
    · intro u hu g hg
      rcases List.mem_append.mp hu with hu' | hu'
      · rw [runFile_updates_fileId sig work tu ks p st hK u hu']
        exact Ne.symm (hgp g hg)
      · exact ih3 u hu' g hg

/-- **C5.** Global cancellation: whenever the files before `fi` all complete
their `try` blocks without throwing and the abort `DOMException` escapes
while `fi` is in flight (`runFile` for `fi` returns the abort error — a
cancellation observed at a `throwIfAborted` check or a rejected `sleep`),
the `catch` block marks `fi` `failed` with message "Processing aborted" and
the loop `break`s: every file after `fi` keeps its untouched initial
`queued` state in the final map, and no emitted update ever mentions a later
file — cancellation is global, not a per-file skip. -/
theorem c5_cancellation_stops_batch (sig : ℕ → Bool) (work : ℕ → StepOutcome)
    (pre post : List AudioFile) (fi : AudioFile) (options : ProcessingOptions)
    (hnodup : ((pre ++ fi :: post).map AudioFile.id).Nodup)
    (hpre : CleanPrefix sig work (totalUnitsOf (pre ++ fi :: post) options)
        (getEnabledSteps options) pre
        { states := initStates (pre ++ fi :: post), completed := 0, clock := 0 })
    (habort : (runFile sig work (totalUnitsOf (pre ++ fi :: post) options)
          (getEnabledSteps options) fi
          (stAfter sig work (totalUnitsOf (pre ++ fi :: post) options)
            (getEnabledSteps options) pre
            { states := initStates (pre ++ fi :: post), completed := 0, clock := 0 })).2.2
        = Except.error BatchErr.abortError) :
    (∃ v, (processAudioBatch sig work (pre ++ fi :: post) options).2.states.lookup fi.id
        = some v ∧ v.status = FileStatus.failed
        ∧ v.message = some "Processing aborted")
      ∧ (∀ g ∈ post,
          (processAudioBatch sig work (pre ++ fi :: post) options).2.states.lookup g.id
            = some (initFileState g))
      ∧ (∀ u ∈ (processAudioBatch sig work (pre ++ fi :: post) options).1, ∀ g ∈ post,
          u.file.fileId ≠ g.id) := by
  obtain ⟨h1, h2, h3⟩ := runBatch_abort_at sig work
    (totalUnitsOf (pre ++ fi :: post) options) (getEnabledSteps options) fi post pre
    { states := initStates (pre ++ fi :: post), completed := 0, clock := 0 }
    hnodup
    (initStates_lookup_mem (pre ++ fi :: post) fi
      (List.mem_append_right pre (List.mem_cons_self fi post)))
    (keysOK_initStates _) hpre habort
  refine ⟨h1, ?_, h3⟩
  intro g hg
  simp only [processAudioBatch]
  rw [h2 g hg]
  exact initStates_lookup_of_nodup _ hnodup g
    (List.mem_append_right pre (List.mem_cons_of_mem fi hg))

/-- Witness for C5 at the spec's five-file scenario: cancellation during
file 2's first step leaves file 2 `failed` ("Processing aborted") and files
3-5 untouched (`queued`), with no update emitted for them. -/
theorem c5_cancellation_stops_batch_witness :
    (((c5Pre ++ c5Fi :: c5Post).map AudioFile.id).Nodup)
    ∧ ((∃ v, (processAudioBatch (fun _ => false) c5Work (c5Pre ++ c5Fi :: c5Post)
            c5Opts).2.states.lookup c5Fi.id = some v
          ∧ v.status = FileStatus.failed ∧ v.message = some "Processing aborted")
      ∧ (∀ g ∈ c5Post,
          (processAudioBatch (fun _ => false) c5Work (c5Pre ++ c5Fi :: c5Post)
              c5Opts).2.states.lookup g.id = some (initFileState g))
      ∧ (∀ u ∈ (processAudioBatch (fun _ => false) c5Work (c5Pre ++ c5Fi :: c5Post)
            c5Opts).1, ∀ g ∈ c5Post, u.file.fileId ≠ g.id)) :=
  ⟨by decide,
   c5_cancellation_stops_batch (fun _ => false) c5Work c5Pre c5Post c5Fi c5Opts
     (by decide) (by exact ⟨rfl, trivial⟩) (by rfl)⟩

theorem blocked_prepend_const {l1 l2 : List String} {k : String} {ks : List String}
    (h1 : ∀ x ∈ l1, x = k) (h2 : Blocked l2 (k :: ks)) : Blocked (l1 ++ l2) (k :: ks) := by
  induction l1 with
  | nil => exact h2
  | cons x xs ih =>
    have hx : x = k := h1 x (List.mem_cons_self _ _)
    rw [hx, List.cons_append]
    exact Blocked.cons _ _ _ (ih (fun y hy => h1 y (List.mem_cons_of_mem _ hy)))

theorem updateState_keys (m : List (String × FileProcessingState)) (k : String)
    (f : FileProcessingState → FileProcessingState) :
    (updateState m k f).map Prod.fst = m.map Prod.fst := by
  simp only [updateState, List.map_map]
  apply List.map_congr_left
  intro p _
  by_cases h : p.1 = k
  · simp [h]
  · simp [h]

theorem keysNodup_updateState {m : List (String × FileProcessingState)} (k : String)
    (f : FileProcessingState → FileProcessingState) (h : KeysNodup m) :
    KeysNodup (updateState m k f) := by
  unfold KeysNodup
  rw [updateState_keys]
  exact h

theorem keysNodup_initStates (files : List AudioFile)
    (h : (files.map AudioFile.id).Nodup) : KeysNodup (initStates files) := by
  unfold KeysNodup initStates
  rw [List.map_map]
  exact h

theorem noRunning_initStates (files : List AudioFile) : NoRunning (initStates files) := by
  intro p hp
  simp only [initStates, List.mem_map] at hp
  obtain ⟨file, _, rfl⟩ := hp
  simp [initFileState]

theorem onlyRunning_of_noRunning {m : List (String × FileProcessingState)}
    (h : NoRunning m) (k : String) : OnlyRunning m k :=
  fun p hp hr => absurd hr (h p hp)

theorem onlyRunning_updateState_self {m : List (String × FileProcessingState)}
    {k : String} (f : FileProcessingState → FileProcessingState)
    (h : OnlyRunning m k) : OnlyRunning (updateState m k f) k := by
  intro p hp hr
  simp only [updateState, List.mem_map] at hp
  obtain ⟨q, hq, hpq⟩ := hp
  by_cases hqk : q.1 = k
  · rw [if_pos hqk] at hpq
    rw [← hpq]
    exact hqk
  · rw [if_neg hqk] at hpq
    rw [← hpq] at hr ⊢
    exact h q hq hr

theorem noRunning_updateState {m : List (String × FileProcessingState)}
    {k : String} {f : FileProcessingState → FileProcessingState}
    (h : OnlyRunning m k) (hf : ∀ v, (f v).status ≠ FileStatus.running) :
    NoRunning (updateState m k f) := by
  intro p hp hr
  simp only [updateState, List.mem_map] at hp
  obtain ⟨q, hq, hpq⟩ := hp
  by_cases hqk : q.1 = k
  · rw [if_pos hqk] at hpq
    rw [← hpq] at hr
    exact hf q.2 hr
  · rw [if_neg hqk] at hpq
    rw [← hpq] at hr
    exact hqk (h q hq hr)

theorem countP_running_le_one {k : String} :
    ∀ m : List (String × FileProcessingState), KeysNodup m → OnlyRunning m k →
      m.countP (fun p => p.2.status == FileStatus.running) ≤ 1 := by
  intro m
  induction m with
  | nil => intro _ _; simp
  | cons p rest ih =>
    intro hN hO
    obtain ⟨hnotin, htail⟩ : p.1 ∉ rest.map Prod.fst ∧ (rest.map Prod.fst).Nodup := by
      simpa [KeysNodup] using hN
    rw [List.countP_cons]
    by_cases hp : p.2.status = FileStatus.running
    · have hz : rest.countP (fun q => q.2.status == FileStatus.running) = 0 := by
        rw [List.countP_eq_zero]
        intro q hq hqr
        have hqrun : q.2.status = FileStatus.running := by simpa using hqr
        have : q.1 = p.1 := by
          rw [hO q (List.mem_cons_of_mem _ hq) hqrun,
            ← hO p (List.mem_cons_self _ _) hp]
        exact hnotin (this ▸ List.mem_map_of_mem Prod.fst hq)
      simp [hz, hp]
    · have hb : (p.2.status == FileStatus.running) = false := by
        simpa using hp
      simp only [hb, if_false]
      simpa using ih htail (fun q hq => hO q (List.mem_cons_of_mem _ hq))

theorem emit_runningFiles (m : List (String × FileProcessingState)) (tu c : ℕ)
    (k : String) : (emit m tu c k).aggregate.runningFiles
      = m.countP (fun p => p.2.status == FileStatus.running) := rfl

theorem runSteps_running_invariant (sig : ℕ → Bool) (work : ℕ → StepOutcome) (tu : ℕ)
    (fid : String) :
    ∀ steps st, KeysNodup st.states → OnlyRunning st.states fid →
      (∀ u ∈ (runSteps sig work tu fid steps st).1, u.aggregate.runningFiles ≤ 1)
        ∧ KeysNodup (runSteps sig work tu fid steps st).2.1.states
        ∧ OnlyRunning (runSteps sig work tu fid steps st).2.1.states fid := by
  intro steps
  induction steps with
  | nil =>
    intro st hN hO
    exact ⟨fun u hu => absurd hu (List.not_mem_nil u), hN, hO⟩
  | cons step rest ih =>
    intro st hN hO
    simp only [runSteps]
    by_cases hs : sig st.clock
    · rw [if_pos hs]
      exact ⟨fun u hu => absurd hu (List.not_mem_nil u), hN, hO⟩
    · rw [if_neg hs]
      try dsimp only
      have hN1 : KeysNodup (updateState st.states fid
          (fun s0 => { s0 with step := some step })) :=
        keysNodup_updateState _ _ hN
      have hO1 : OnlyRunning (updateState st.states fid
          (fun s0 => { s0 with step := some step })) fid :=
        onlyRunning_updateState_self _ hO
      have hu1 : (emit (updateState st.states fid
          (fun s0 => { s0 with step := some step })) tu st.completed
            fid).aggregate.runningFiles ≤ 1 := by
        rw [emit_runningFiles]
        exact countP_running_le_one _ hN1 hO1
      cases hw : work st.clock with
      | abortErr =>
        try dsimp only
        refine ⟨?_, hN1, hO1⟩
        intro u hu
        rw [List.mem_singleton.mp hu]
        exact hu1
      | err m =>
        try dsimp only
        refine ⟨?_, hN1, hO1⟩
        intro u hu
        rw [List.mem_singleton.mp hu]
        exact hu1
      | ok =>
        try dsimp only
        obtain ⟨ihu, ihN, ihO⟩ := ih
          { states := updateState st.states fid (fun s0 => { s0 with step := some step })
            completed := st.completed + 1
            clock := st.clock + 1 } hN1 hO1
        refine ⟨?_, ihN, ihO⟩
        intro u hu
        rcases List.mem_cons.mp hu with rfl | hu'
        · exact hu1
        rcases List.mem_cons.mp hu' with rfl | hu''
        · rw [emit_runningFiles]
          exact countP_running_le_one _ hN1 hO1
        · exact ihu u hu''

theorem runFile_running_invariant (sig : ℕ → Bool) (work : ℕ → StepOutcome) (tu : ℕ)
    (ks : List ProcessingStep) (file : AudioFile) :
    ∀ st, KeysNodup st.states → NoRunning st.states →
      (∀ u ∈ (runFile sig work tu ks file st).1, u.aggregate.runningFiles ≤ 1)
        ∧ KeysNodup (runFile sig work tu ks file st).2.1.states
        ∧ OnlyRunning (runFile sig work tu ks file st).2.1.states file.id
        ∧ ((runFile sig work tu ks file st).2.2 = Except.ok ()
            → NoRunning (runFile sig work tu ks file st).2.1.states) := by
  intro st hN hR
  simp only [runFile]
  by_cases hs : sig st.clock
  · rw [if_pos hs]
    try dsimp only
    exact ⟨fun u hu => absurd hu (List.not_mem_nil u), hN,
      onlyRunning_of_noRunning hR file.id, fun _ => hR⟩
  · rw [if_neg hs]
    have hN1 : KeysNodup (updateState st.states file.id
        (fun s0 =>
          { s0 with
            status := FileStatus.running
            message := none
            step := ks.head? })) :=
      keysNodup_updateState _ _ hN
    have hO1 : OnlyRunning (updateState st.states file.id
        (fun s0 =>
          { s0 with
            status := FileStatus.running
            message := none
            step := ks.head? })) file.id :=
      onlyRunning_updateState_self _ (onlyRunning_of_noRunning hR _)
    by_cases hks : ks.isEmpty
    · rw [if_pos hks]
      try dsimp only
      have hR2 : NoRunning (updateState (updateState st.states file.id
          (fun s0 =>
            { s0 with
              status := FileStatus.running
              message := none
              step := ks.head? })) file.id
          (fun s0 => { s0 with status := FileStatus.success, step := none })) :=
        noRunning_updateState hO1 (fun v => by simp)
      have hN2 : KeysNodup (updateState (updateState st.states file.id
          (fun s0 =>
            { s0 with
              status := FileStatus.running
              message := none
              step := ks.head? })) file.id
          (fun s0 => { s0 with status := FileStatus.success, step := none })) :=
        keysNodup_updateState _ _ hN1
      refine ⟨?_, hN2, onlyRunning_of_noRunning hR2 _, fun _ => hR2⟩
      intro u hu
      rcases List.mem_cons.mp hu with rfl | hu'
      · rw [emit_runningFiles]
        exact countP_running_le_one _ hN1 hO1
      · rw [List.mem_singleton.mp hu', emit_runningFiles]
        exact countP_running_le_one _ hN2 (onlyRunning_of_noRunning hR2 file.id)
    · rw [if_neg hks]
      try dsimp only
      obtain ⟨ihu, ihN, ihO⟩ := runSteps_running_invariant sig work tu file.id ks
        { st with
          states := updateState st.states file.id
            (fun s0 =>
              { s0 with
                status := FileStatus.running
                message := none
                step := ks.head? }) } hN1 hO1
      cases hE : (runSteps sig work tu file.id ks
          { st with
            states := updateState st.states file.id
              (fun s0 =>
                { s0 with
                  status := FileStatus.running
                  message := none
                  step := ks.head? }) }).2.2 with
      | ok u =>
        cases u
        try dsimp only
        have hR2 : NoRunning (updateState (runSteps sig work tu file.id ks
            { st with
              states := updateState st.states file.id
                (fun s0 =>
                  { s0 with
                    status := FileStatus.running
                    message := none
                    step := ks.head? }) }).2.1.states file.id
            (fun s0 => { s0 with status := FileStatus.success, step := none })) :=
          noRunning_updateState ihO (fun v => by simp)
        have hN2 : KeysNodup (updateState (runSteps sig work tu file.id ks
            { st with
              states := updateState st.states file.id
                (fun s0 =>
                  { s0 with
                    status := FileStatus.running
                    message := none
                    step := ks.head? }) }).2.1.states file.id
            (fun s0 => { s0 with status := FileStatus.success, step := none })) :=
          keysNodup_updateState _ _ ihN
        refine ⟨?_, hN2, onlyRunning_of_noRunning hR2 _, fun _ => hR2⟩
        intro u hu
        rcases List.mem_cons.mp hu with rfl | hu'
        · rw [emit_runningFiles]
          exact countP_running_le_one _ hN1 hO1
        rcases List.mem_append.mp hu' with hu'' | hu''
        · exact ihu u hu''
        · rw [List.mem_singleton.mp hu'', emit_runningFiles]
          exact countP_running_le_one _ hN2 (onlyRunning_of_noRunning hR2 file.id)
      | error e =>
        try dsimp only
        refine ⟨?_, ihN, ihO, fun hcon => nomatch hcon⟩
        intro u hu
        rcases List.mem_cons.mp hu with rfl | hu'
        · rw [emit_runningFiles]
          exact countP_running_le_one _ hN1 hO1
        · exact ihu u hu'

theorem runBatch_running_invariant (sig : ℕ → Bool) (work : ℕ → StepOutcome) (tu : ℕ)
    (ks : List ProcessingStep) :
    ∀ files st, KeysNodup st.states → NoRunning st.states →
      ∀ u ∈ (runBatch sig work tu ks files st).1, u.aggregate.runningFiles ≤ 1 := by
  intro files
  induction files with
  | nil => intro st _ _ u hu; exact absurd hu (List.not_mem_nil u)
  | cons file rest ih =>
    intro st hN hR
    obtain ⟨hu1, hN1, hO1, hok⟩ := runFile_running_invariant sig work tu ks file st hN hR
    simp only [runBatch]
    cases hE : (runFile sig work tu ks file st).2.2 with
    | ok u0 =>
      cases u0
      try dsimp only
      intro u hu
      rcases List.mem_append.mp hu with hu' | hu'
      · exact hu1 u hu'
      · exact ih _ hN1 (hok hE) u hu'
    | error e =>
      try dsimp only
      have hR2 : NoRunning (updateState (runFile sig work tu ks file st).2.1.states file.id
          (fun s0 =>
            { s0 with
              status := FileStatus.failed
              step := none
              message := some (errMessage e) })) :=
        noRunning_updateState hO1 (fun v => by simp)
      have hN2 : KeysNodup (updateState (runFile sig work tu ks file st).2.1.states file.id
          (fun s0 =>
            { s0 with
              status := FileStatus.failed
              step := none
              message := some (errMessage e) })) :=
        keysNodup_updateState _ _ hN1
      have hufb : (emit (updateState (runFile sig work tu ks file st).2.1.states file.id
          (fun s0 =>
            { s0 with
              status := FileStatus.failed
              step := none
              message := some (errMessage e) })) tu
            (runFile sig work tu ks file st).2.1.completed
            file.id).aggregate.runningFiles ≤ 1 := by
        rw [emit_runningFiles]
        exact countP_running_le_one _ hN2 (onlyRunning_of_noRunning hR2 file.id)
      split
      · try dsimp only
        intro u hu
        rcases List.mem_append.mp hu with hu' | hu'
        · exact hu1 u hu'
        · rw [List.mem_singleton.mp hu']
          exact hufb
      · try dsimp only
        intro u hu
        rcases List.mem_append.mp hu with hu' | hu'
        · exact hu1 u hu'
        rcases List.mem_cons.mp hu' with rfl | hu''
        · exact hufb
        · exact ih _ hN2 hR2 u hu''

theorem runBatch_updates_blocked (sig : ℕ → Bool) (work : ℕ → StepOutcome) (tu : ℕ)
    (ks : List ProcessingStep) :
    ∀ files st, KeysOK st.states →
      Blocked ((runBatch sig work tu ks files st).1.map (fun u => u.file.fileId))
        (files.map AudioFile.id) := by
  intro files
  induction files with
  | nil => intro st _; exact Blocked.nil _
  | cons file rest ih =>
    intro st hK
    have hfid : ∀ u ∈ (runFile sig work tu ks file st).1, u.file.fileId = file.id :=
      runFile_updates_fileId sig work tu ks file st hK
    have hall : ∀ x ∈ (runFile sig work tu ks file st).1.map (fun u => u.file.fileId),
        x = file.id := by
      intro x hx
      obtain ⟨u, hu, rfl⟩ := List.mem_map.mp hx
      exact hfid u hu
    have hKF := runFile_keysOK sig work tu ks file st hK
    simp only [runBatch, List.map_cons]
    cases hE : (runFile sig work tu ks file st).2.2 with
    | ok u0 =>
      cases u0
      try dsimp only
      rw [List.map_append]
      exact blocked_prepend_const hall (Blocked.skip _ _ _ (ih _ hKF))
    | error e =>
      try dsimp only
      have hK2 : KeysOK (updateState (runFile sig work tu ks file st).2.1.states file.id
          (fun s0 =>
            { s0 with
              status := FileStatus.failed
              step := none
              message := some (errMessage e) })) :=
        keysOK_updateState _ hKF (fun v => rfl)
      have hufid : (emit (updateState (runFile sig work tu ks file st).2.1.states file.id
          (fun s0 =>
            { s0 with
              status := FileStatus.failed
              step := none
              message := some (errMessage e) })) tu
            (runFile sig work tu ks file st).2.1.completed file.id).file.fileId
          = file.id :=
        emit_fileId _ _ hK2
      split
      · try dsimp only
        rw [List.map_append, List.map_cons, List.map_nil]
        rw [hufid]
        exact blocked_prepend_const hall
          (Blocked.cons _ _ _ (Blocked.nil _))
      · try dsimp only
        rw [List.map_append, List.map_cons]
        rw [hufid]
        exact blocked_prepend_const hall
          (Blocked.cons _ _ _ (Blocked.skip _ _ _ (ih _ hK2)))

/-- **C7.** The sequencer is not concurrent: with pairwise-distinct file
ids, every update emitted during any run (any signal and step-work oracles)
carries an aggregate with `runningFiles ≤ 1`, and the sequence of file ids
of the emitted updates is a concatenation of per-file blocks following the
file-list order — updates across different files appear in list order. -/
theorem c7_sequential_single_running (sig : ℕ → Bool) (work : ℕ → StepOutcome)
    (files : List AudioFile) (options : ProcessingOptions)
    (hnodup : (files.map AudioFile.id).Nodup) :
    (∀ u ∈ (processAudioBatch sig work files options).1,
        u.aggregate.runningFiles ≤ 1)
      ∧ Blocked ((processAudioBatch sig work files options).1.map
          (fun u => u.file.fileId)) (files.map AudioFile.id) :=
  ⟨runBatch_running_invariant sig work (totalUnitsOf files options)
      (getEnabledSteps options) files
      { states := initStates files, completed := 0, clock := 0 }
      (keysNodup_initStates files hnodup) (noRunning_initStates files),
   runBatch_updates_blocked sig work (totalUnitsOf files options)
      (getEnabledSteps options) files
      { states := initStates files, completed := 0, clock := 0 }
      (keysOK_initStates files)⟩

/-- Witness for C7: two files with distinct ids, one enabled step, clean
run. -/
theorem c7_sequential_single_running_witness :
    ((c7Files.map AudioFile.id).Nodup)
    ∧ ((∀ u ∈ (processAudioBatch (fun _ => false) (fun _ => StepOutcome.ok) c7Files
          { mono := some { enabled := true } }).1, u.aggregate.runningFiles ≤ 1)
      ∧ Blocked ((processAudioBatch (fun _ => false) (fun _ => StepOutcome.ok) c7Files
          { mono := some { enabled := true } }).1.map (fun u => u.file.fileId))
        (c7Files.map AudioFile.id)) :=
  ⟨by decide,
   c7_sequential_single_running (fun _ => false) (fun _ => StepOutcome.ok) c7Files
     { mono := some { enabled := true } } (by decide)⟩

end BatchProcessor
